import Mathlib

/-!
Verification of the PR-description validation action.

The development shallowly embeds the JavaScript sources
(`src/check-pr-template.js`, `src/config.js`, `src/validators/commits.js`,
`src/validators/checkboxes.js`) into Lean.  Pure functions become Lean
functions over `List Char` / `String`; the external collaborators
(GitHub API, file system, YAML parser, Node `path` module) become oracle
fields of explicit environment structures.  JavaScript `null`/`undefined`
is modelled with `Option`, JS truthiness is spelled out at each use site.
-/

namespace PRCheck

/-- ASCII model of the JavaScript regex class `\s` (whitespace). -/
def isWs (c : Char) : Bool :=
  c = ' ' || c = '\t' || c = '\n' || c = '\r' || c = '\x0b' || c = '\x0c'

/-- Case-insensitive character comparison, as done by the JS `i` regex flag. -/
def charCI (a b : Char) : Bool := a.toLower = b.toLower

/-- Case-insensitive "the text begins with the pattern" test. -/
def beginsCI : List Char → List Char → Bool
  | [], _ => true
  | _ :: _, [] => false
  | p :: ps, t :: ts => charCI p t && beginsCI ps ts

/-- JS `str.split("\n")` over the character list: the (possibly empty)
segments between newline characters. -/
def splitLines : List Char → List (List Char)
  | [] => [[]]
  | c :: rest =>
    if c = '\n' then [] :: splitLines rest
    else
      match splitLines rest with
      | [] => [[c]]
      | l :: ls => (c :: l) :: ls

/-! ## Checkbox model (`src/validators/checkboxes.js`) -/

/-- One parsed checkbox line: raw leading-whitespace count, checked state,
trimmed label text (`parseCheckboxes` output shape). -/
structure Checkbox where
  indentation : Nat
  checked : Bool
  text : String
  deriving Repr, DecidableEq

/-- The regex class `[a-z0-9-_]` is not needed here; this is the checkbox
line grammar `^(\s*)- \[([xX ])\] (.+)` applied to one line (the line has
no newline characters because the body was split on `"\n"`). -/
def parseCheckboxLine (line : List Char) : Option Checkbox :=
  let ws := line.takeWhile isWs
  let rest := line.drop ws.length
  match rest with
  | '-' :: ' ' :: '[' :: st :: ']' :: ' ' :: label =>
    if (st = 'x' || st = 'X' || st = ' ') && label ≠ [] then
      some { indentation := ws.length
             -- `match[2].trim().toLowerCase() === "x"`: on the three possible
             -- state characters this is exactly "the state char is x or X"
             checked := (st = 'x' || st = 'X')
             text := (String.mk label).trim }
    else none
  | _ => none

/-- `parseCheckboxes(content)`: split on newlines, keep the lines matching
the checkbox grammar, in source order. -/
def parseCheckboxes (content : String) : List Checkbox :=
  (splitLines content.toList).filterMap parseCheckboxLine

/-- Insert into an ascending list (models the `sort((a,b) => a-b)` step). -/
def insertSorted (x : Nat) : List Nat → List Nat
  | [] => [x]
  | y :: ys => if x ≤ y then x :: y :: ys else y :: insertSorted x ys

/-- Ascending sort of a list of naturals. -/
def sortNats (l : List Nat) : List Nat := l.foldr insertSorted []

/-- `[...new Set(checkboxes.map(cb => cb.indentation))].sort((a,b) => a-b)`:
the distinct indentation values, ascending. -/
def sortedLevels (boxes : List Checkbox) : List Nat :=
  sortNats ((boxes.map Checkbox.indentation).dedup)

/-- The scanning loop of `findDirectChildren`: walk the nodes after the
parent, stop at the first node whose indentation is ≤ the parent's, and
collect the nodes whose indentation equals `childLevel`. -/
def collectChildren (parentIndent childLevel : Nat) : List Checkbox → List Checkbox
  | [] => []
  | b :: rest =>
    if b.indentation ≤ parentIndent then []
    else if b.indentation = childLevel then b :: collectChildren parentIndent childLevel rest
    else collectChildren parentIndent childLevel rest

/-- `findDirectChildren(parent, checkboxes, startIndex, childLevel)`. -/
def findDirectChildren (parent : Checkbox) (boxes : List Checkbox)
    (startIndex childLevel : Nat) : List Checkbox :=
  collectChildren parent.indentation childLevel (boxes.drop (startIndex + 1))

/-- The error message pushed by `validateNestedCheckboxes` for one parent. -/
def nestedErrMsg (sectionName : String) (cb : Checkbox) : String :=
  "In \"" ++ sectionName ++ "\" section, \"" ++ cb.text ++
    "\" is checked but has unchecked sub-items"

/-- `validateNestedCheckboxes(sectionName, checkboxes, errors)`: the list of
error strings it pushes, in push order. -/
def validateNestedCheckboxes (sectionName : String) (boxes : List Checkbox) :
    List String :=
  if boxes.isEmpty then []
  else
    let lvls := sortedLevels boxes
    if lvls.length ≤ 1 then []
    else
      boxes.enum.filterMap (fun p =>
        let i := p.1
        let cb := p.2
        if !cb.checked then none
        else
          match lvls.find? (fun l => cb.indentation < l) with
          | none => none
          | some nl =>
            let children := findDirectChildren cb boxes i nl
            if 0 < children.length && children.any (fun c => !c.checked) then
              some (nestedErrMsg sectionName cb)
            else none)

/-! ### Spec-side characterizations for the nested-checkbox validator -/

/-- Minimum of a list of naturals, `none` on the empty list. -/
def listMin? : List Nat → Option Nat
  | [] => none
  | x :: xs =>
    match listMin? xs with
    | none => some x
    | some m => some (if x ≤ m then x else m)

theorem listMin?_eq_none {l : List Nat} : listMin? l = none ↔ l = [] := by
  cases l with
  | nil => simp [listMin?]
  | cons x xs =>
    simp only [listMin?]
    cases listMin? xs <;> simp

theorem listMin?_mem {l : List Nat} {m : Nat} (h : listMin? l = some m) : m ∈ l := by
  induction l generalizing m with
  | nil => simp [listMin?] at h
  | cons x xs ih =>
    simp only [listMin?] at h
    cases hx : listMin? xs with
    | none => rw [hx] at h; simp at h; simp [h]
    | some m' =>
      rw [hx] at h
      simp at h
      by_cases hle : x ≤ m'
      · rw [if_pos hle] at h
        simp [← h]
      · rw [if_neg hle] at h
        right
        rw [← h]
        exact ih hx

theorem listMin?_le {l : List Nat} {m : Nat} (h : listMin? l = some m) :
    ∀ y ∈ l, m ≤ y := by
  induction l generalizing m with
  | nil => simp
  | cons x xs ih =>
    intro y hy
    simp only [listMin?] at h
    cases hx : listMin? xs with
    | none =>
      rw [hx] at h; simp at h
      have hxs : xs = [] := listMin?_eq_none.mp hx
      subst hxs
      simp at hy
      omega
    | some m' =>
      rw [hx] at h
      simp at h
      have hm' := ih hx
      rcases List.mem_cons.mp hy with rfl | hy'
      · split at h <;> omega
      · have := hm' y hy'
        split at h <;> omega

theorem listMin?_congr_mem {l₁ l₂ : List Nat} (h : ∀ a, a ∈ l₁ ↔ a ∈ l₂) :
    listMin? l₁ = listMin? l₂ := by
  cases h₁ : listMin? l₁ with
  | none =>
    cases h₂ : listMin? l₂ with
    | none => rfl
    | some m =>
      have hm : m ∈ l₁ := (h m).mpr (listMin?_mem h₂)
      rw [listMin?_eq_none.mp h₁] at hm
      cases hm
  | some m =>
    cases h₂ : listMin? l₂ with
    | none =>
      have hm : m ∈ l₂ := (h m).mp (listMin?_mem h₁)
      rw [listMin?_eq_none.mp h₂] at hm
      cases hm
    | some m' =>
      have h1 : m' ≤ m := listMin?_le h₂ m ((h m).mp (listMin?_mem h₁))
      have h2 : m ≤ m' := listMin?_le h₁ m' ((h m').mpr (listMin?_mem h₂))
      have : m = m' := Nat.le_antisymm h2 h1
      rw [this]

theorem mem_insertSorted {x a : Nat} {l : List Nat} :
    a ∈ insertSorted x l ↔ a = x ∨ a ∈ l := by
  induction l with
  | nil => simp [insertSorted]
  | cons y ys ih =>
    simp only [insertSorted]
    split
    · simp only [List.mem_cons]
    · simp only [List.mem_cons, ih]
      tauto

theorem sorted_insertSorted {x : Nat} {l : List Nat}
    (h : l.Sorted (· ≤ ·)) : (insertSorted x l).Sorted (· ≤ ·) := by
  induction l with
  | nil => simp [insertSorted]
  | cons y ys ih =>
    rw [List.sorted_cons] at h
    simp only [insertSorted]
    split
    · rw [List.sorted_cons]
      constructor
      · intro b hb
        rcases List.mem_cons.mp hb with rfl | hb'
        · omega
        · have := h.1 b hb'
          omega
      · rw [List.sorted_cons]; exact h
    · rw [List.sorted_cons]
      constructor
      · intro b hb
        rcases mem_insertSorted.mp hb with rfl | hb'
        · omega
        · exact h.1 b hb'
      · exact ih h.2

theorem mem_sortNats {a : Nat} {l : List Nat} : a ∈ sortNats l ↔ a ∈ l := by
  induction l with
  | nil => simp [sortNats]
  | cons x xs ih =>
    simp only [sortNats, List.foldr] at *
    rw [mem_insertSorted, ih, List.mem_cons]

theorem sorted_sortNats {l : List Nat} : (sortNats l).Sorted (· ≤ ·) := by
  induction l with
  | nil => simp [sortNats]
  | cons x xs ih => exact sorted_insertSorted ih

theorem find?_sorted_eq_listMin?_filter (x : Nat) {l : List Nat}
    (h : l.Sorted (· ≤ ·)) :
    l.find? (fun y => x < y) = listMin? (l.filter (fun y => x < y)) := by
  induction l with
  | nil => rfl
  | cons y ys ih =>
    rw [List.sorted_cons] at h
    by_cases hy : x < y
    · rw [List.find?_cons_of_pos _ (by simpa using hy)]
      rw [List.filter_cons_of_pos (by simpa using hy)]
      simp only [listMin?]
      cases hm : listMin? (ys.filter (fun y => x < y)) with
      | none => rfl
      | some m =>
        have hmem : m ∈ ys.filter (fun y => x < y) := listMin?_mem hm
        have hym : y ≤ m := h.1 m (List.mem_filter.mp hmem).1
        simp only [if_pos hym]
    · rw [List.find?_cons_of_neg _ (by simpa using hy)]
      rw [List.filter_cons_of_neg (by simpa using hy)]
      exact ih h.2

/-- Spec-side reading of `levels.find(l => l > x)`: the smallest indentation
value occurring anywhere in the checkbox list that is strictly greater
than `x`. -/
def minIndentAbove (boxes : List Checkbox) (x : Nat) : Option Nat :=
  listMin? ((boxes.map Checkbox.indentation).filter (fun l => x < l))

theorem sortedLevels_find?_eq (boxes : List Checkbox) (x : Nat) :
    (sortedLevels boxes).find? (fun l => x < l) = minIndentAbove boxes x := by
  rw [sortedLevels, find?_sorted_eq_listMin?_filter x sorted_sortNats, minIndentAbove]
  apply listMin?_congr_mem
  intro a
  simp [List.mem_filter, mem_sortNats, List.mem_dedup]

theorem collectChildren_eq (pi cl : Nat) (l : List Checkbox) :
    collectChildren pi cl l =
      (l.takeWhile (fun b => pi < b.indentation)).filter
        (fun b => b.indentation = cl) := by
  induction l with
  | nil => rfl
  | cons b rest ih =>
    simp only [collectChildren]
    by_cases hle : b.indentation ≤ pi
    · rw [if_pos hle, List.takeWhile_cons_of_neg (by simp; omega)]
      simp
    · rw [if_neg hle, List.takeWhile_cons_of_pos (by simp; omega)]
      by_cases hcl : b.indentation = cl
      · rw [if_pos hcl, List.filter_cons_of_pos (by simpa using hcl), ih]
      · rw [if_neg hcl, List.filter_cons_of_neg (by simpa using hcl), ih]

/-- Direct children of `boxes[i] = cb` under the amended reading: the nodes
after the parent, before the first later node at or above the parent's
indentation, whose indentation is the smallest value in the whole list
strictly greater than the parent's. -/
def amendedDirectChildren (boxes : List Checkbox) (i : Nat) (cb : Checkbox) :
    List Checkbox :=
  match minIndentAbove boxes cb.indentation with
  | none => []
  | some m =>
    ((boxes.drop (i + 1)).takeWhile (fun b => cb.indentation < b.indentation)).filter
      (fun b => b.indentation = m)

/-- The amended per-parent violation condition: the parent is checked, has
amended direct children, and at least one of them is unchecked. -/
def amendedViolatedB (boxes : List Checkbox) (i : Nat) (cb : Checkbox) : Bool :=
  cb.checked &&
    (!(amendedDirectChildren boxes i cb).isEmpty &&
      (amendedDirectChildren boxes i cb).any (fun c => !c.checked))

/-- Direct children exactly as the claim words them: among the nodes after
the parent and before the first later node at or above the parent's
indentation, those whose indentation equals the indentation of the
*first* node encountered after the parent with strictly greater
indentation. -/
def claimDirectChildren (boxes : List Checkbox) (i : Nat) (cb : Checkbox) :
    List Checkbox :=
  let boundary := (boxes.drop (i + 1)).takeWhile (fun b => cb.indentation < b.indentation)
  match boundary with
  | [] => []
  | b :: _ => boundary.filter (fun c => c.indentation = b.indentation)

/-- The claim's per-parent violation condition. -/
def claimViolatedB (boxes : List Checkbox) (i : Nat) (cb : Checkbox) : Bool :=
  cb.checked &&
    (!(claimDirectChildren boxes i cb).isEmpty &&
      (claimDirectChildren boxes i cb).any (fun c => !c.checked))

/-- Concrete checkbox list separating the claim from the code: the list has
indentation levels 0, 2 and 4, but the node after parent "A" sits at
indentation 4 while the globally smallest deeper level is 2. -/
def cexBoxes : List Checkbox :=
  [⟨0, true, "A"⟩, ⟨4, false, "B"⟩, ⟨0, true, "C"⟩, ⟨2, false, "D"⟩]

theorem filterMap_ite {α β : Type} (q : α → Bool) (f : α → β) (l : List α) :
    (l.filterMap (fun a => if q a then some (f a) else none)) = (l.filter q).map f := by
  induction l with
  | nil => rfl
  | cons a t ih =>
    by_cases h : q a <;> simp [List.filterMap_cons, List.filter_cons, h, ih]

theorem length_pos_eq_not_isEmpty {α : Type} (l : List α) :
    decide (0 < l.length) = !l.isEmpty := by
  cases l <;> simp

theorem mem_of_mem_enum {α : Type} {l : List α} {p : Nat × α} (h : p ∈ l.enum) :
    p.2 ∈ l := by
  obtain ⟨i, a⟩ := p
  obtain ⟨hi, ha⟩ := List.mem_enum h
  simp only [ha]
  exact List.getElem_mem hi

theorem minIndentAbove_eq_none_of_levels_le_one {boxes : List Checkbox}
    {cb : Checkbox} (hcb : cb ∈ boxes) (h : (sortedLevels boxes).length ≤ 1) :
    minIndentAbove boxes cb.indentation = none := by
  rw [minIndentAbove, listMin?_eq_none, List.filter_eq_nil_iff]
  intro l hl
  have h₁ : l ∈ sortedLevels boxes := by
    rw [sortedLevels, mem_sortNats, List.mem_dedup]; exact hl
  have h₂ : cb.indentation ∈ sortedLevels boxes := by
    rw [sortedLevels, mem_sortNats, List.mem_dedup]
    exact List.mem_map_of_mem Checkbox.indentation hcb
  have : l = cb.indentation := by
    match hs : sortedLevels boxes with
    | [] => rw [hs] at h₁; cases h₁
    | [x] =>
      rw [hs] at h₁ h₂
      simp at h₁ h₂
      rw [h₁, h₂]
    | x :: y :: t => rw [hs] at h; simp at h
  simp [this]

/-- Claim C1: the nested-checkbox validator emits exactly one error for
every checked parent whose direct children — the subsequent nodes, before
the first later node at or above the parent's indentation, whose
indentation equals the indentation of the first deeper node encountered
after the parent — include an unchecked one, and no error otherwise.
This is false on `cexBoxes`: the code derives the child level from the
globally smallest deeper indentation (2), not from the first deeper node
after the parent (which sits at indentation 4), so parent "A" produces
no error and the code emits 1 error where the claim demands 2. -/
theorem validateNestedCheckboxes_claim_counterexample :
    (validateNestedCheckboxes "Tasks" cexBoxes).length = 1 ∧
    (cexBoxes.enum.filter (fun p => claimViolatedB cexBoxes p.1 p.2)).length = 2 ∧
    (validateNestedCheckboxes "Tasks" cexBoxes).length ≠
      (cexBoxes.enum.filter (fun p => claimViolatedB cexBoxes p.1 p.2)).length := by
  refine ⟨by decide, by decide, by decide⟩

/-- Claim C1 (amended): for every checked checkbox node in a parsed section
list, its direct children are exactly the subsequent nodes, before the
first later node whose indentation is less than or equal to the parent's,
whose indentation equals the smallest indentation value occurring anywhere
in the list that is strictly greater than the parent's indentation; the
nested validator emits exactly one error for each such parent that has
direct children with at least one unchecked, and no error for unchecked
parents or parents without direct children. -/
theorem validateNestedCheckboxes_amended (name : String) (boxes : List Checkbox) :
    validateNestedCheckboxes name boxes =
      (boxes.enum.filter (fun p => amendedViolatedB boxes p.1 p.2)).map
        (fun p => nestedErrMsg name p.2) := by
  by_cases h₀ : boxes.isEmpty
  · have : boxes = [] := List.isEmpty_iff.mp h₀
    subst this
    rfl
  · rw [validateNestedCheckboxes, if_neg h₀]
    by_cases h₁ : (sortedLevels boxes).length ≤ 1
    · rw [if_pos h₁]
      have : boxes.enum.filter (fun p => amendedViolatedB boxes p.1 p.2) = [] := by
        rw [List.filter_eq_nil_iff]
        intro p hp
        have hcb : p.2 ∈ boxes := mem_of_mem_enum hp
        have hnone := minIndentAbove_eq_none_of_levels_le_one hcb h₁
        simp [amendedViolatedB, amendedDirectChildren, hnone]
      rw [this]
      rfl
    · rw [if_neg h₁]
      have hcongr : ∀ p ∈ boxes.enum,
          (fun (p : Nat × Checkbox) =>
            if !p.2.checked then none
            else
              match (sortedLevels boxes).find? (fun l => p.2.indentation < l) with
              | none => none
              | some nl =>
                if 0 < (findDirectChildren p.2 boxes p.1 nl).length &&
                    (findDirectChildren p.2 boxes p.1 nl).any (fun c => !c.checked) then
                  some (nestedErrMsg name p.2)
                else none) p =
          (fun (p : Nat × Checkbox) =>
            if amendedViolatedB boxes p.1 p.2 then some (nestedErrMsg name p.2)
            else none) p := by
        intro p _
        obtain ⟨i, cb⟩ := p
        simp only
        by_cases hch : cb.checked
        · rw [sortedLevels_find?_eq]
          cases hmin : minIndentAbove boxes cb.indentation with
          | none =>
            simp [hch, amendedViolatedB, amendedDirectChildren, hmin]
          | some nl =>
            have hchildren : findDirectChildren cb boxes i nl =
                amendedDirectChildren boxes i cb := by
              rw [findDirectChildren, collectChildren_eq, amendedDirectChildren, hmin]
            simp only [hch, Bool.not_true, Bool.false_eq_true, if_false,
              amendedViolatedB, hchildren, Bool.true_and]
            rw [← length_pos_eq_not_isEmpty]
        · simp [hch, amendedViolatedB]
      rw [List.filterMap_congr hcongr, filterMap_ite]

/-! ## Section extraction (`getSectionContent`, `src/check-pr-template.js`)

The JS code matches `### ${escapedSectionName}\s*\n([\s\S]*?)(?=###|$)`
with the `i` flag against the PR body.  Escaping makes the section name a
literal; the lazy group with the lookahead stops at the first occurrence
of the substring `###` after the heading, or at the end of the body. -/

/-- Plain (case-sensitive) "the text begins with the pattern" test. -/
def begins : List Char → List Char → Bool
  | [], _ => true
  | _ :: _, [] => false
  | p :: ps, t :: ts => (p = t) && begins ps ts

/-- The boundary token of the lookahead `(?=###|$)`. -/
def tripleHash : List Char := ['#', '#', '#']

/-- The lazy group `([\s\S]*?)(?=###|$)`: all characters before the first
occurrence of the substring `###`, or the whole text if there is none. -/
def takeUntilTripleHash : List Char → List Char
  | [] => []
  | c :: rest =>
    if begins tripleHash (c :: rest) then [] else c :: takeUntilTripleHash rest

/-- Index of the last newline character in a list, if any. -/
def lastNlIdx : List Char → Option Nat
  | [] => none
  | c :: rest =>
    match lastNlIdx rest with
    | some j => some (j + 1)
    | none => if c = '\n' then some 0 else none

/-- The `\s*\n` part of the heading pattern, applied to the characters
following the section title: greedy `\s*` with backtracking consumes up to
the last newline of the leading whitespace run.  Returns the characters
after that newline, or `none` when the run contains no newline (so the
heading pattern does not match here). -/
def afterHeadingWs (s : List Char) : Option (List Char) :=
  match lastNlIdx (s.takeWhile isWs) with
  | none => none
  | some j => some (s.drop (j + 1))

/-- Try the full heading pattern at the head of `s`; on success return the
characters where the lazy content group starts. -/
def matchHeadingAt (pat s : List Char) : Option (List Char) :=
  if beginsCI pat s then afterHeadingWs (s.drop pat.length) else none

/-- Leftmost-match scan of the heading pattern over the body (the JS regex
engine tries each start position in order). -/
def findHeadingTail (pat : List Char) : List Char → Option (List Char)
  | [] => none
  | c :: rest =>
    match matchHeadingAt pat (c :: rest) with
    | some tail => some tail
    | none => findHeadingTail pat rest

/-- JS `String.prototype.trim` (ASCII whitespace model). -/
def trimChars (l : List Char) : List Char :=
  ((l.dropWhile isWs).reverse.dropWhile isWs).reverse

/-- `getSectionContent(prBody, sectionName)`: `(prBody.match(sectionPattern)?.[1] || "").trim()`. -/
def getSectionContent (prBody sectionName : String) : String :=
  match findHeadingTail (("### " ++ sectionName).toList) prBody.toList with
  | none => ""
  | some tail => String.mk (trimChars (takeUntilTripleHash tail))

/-! ### Spec-side readings of the section extractor -/

/-- The claim's reading of "a heading line naming the section title": the
line consists of `### `, the title (case-insensitively), and at most
trailing whitespace. -/
def claimIsHeadingForB (title line : List Char) : Bool :=
  beginsCI (['#', '#', '#', ' '] ++ title) line &&
    (line.drop (4 + title.length)).all isWs

/-- The claim's reading of "heading of the same marker style": a line whose
leading run of marker characters has length exactly three. -/
def claimSameStyleHeadingB (line : List Char) : Bool :=
  (line.takeWhile (fun c => c = '#')).length = 3

/-- Drop every element up to and including the first one satisfying `p`;
`none` when no element satisfies `p`. -/
def dropThroughFirst {α : Type} (p : α → Bool) : List α → Option (List α)
  | [] => none
  | x :: xs => if p x then some xs else dropThroughFirst p xs

/-- Re-join lines with newlines. -/
def joinLines : List (List Char) → List Char
  | [] => []
  | [l] => l
  | l :: rest => l ++ '\n' :: joinLines rest

/-- Section extraction exactly as claim C8 words it: find the heading line
naming the title, return the following lines up to but excluding the next
heading of the same marker style (or end of document), trimmed; `""` when
the heading line is absent. -/
def claimExtract (body title : String) : String :=
  let lines := splitLines body.toList
  match dropThroughFirst (claimIsHeadingForB title.toList) lines with
  | none => ""
  | some after =>
    String.mk (trimChars
      (joinLines (after.takeWhile (fun l => !claimSameStyleHeadingB l))))

/-- Declarative heading-match test at position `i` of the body: the pattern
`### ` + title appears there (case-insensitively) and the whitespace run
following it contains a newline. -/
def headingMatchAtB (pat chars : List Char) (i : Nat) : Bool :=
  beginsCI pat (chars.drop i) &&
    ((chars.drop (i + pat.length)).takeWhile isWs).contains '\n'

/-- Index of the first position where the substring `###` starts. -/
def firstTripleHashIdx (l : List Char) : Option Nat :=
  (List.range l.length).find? (fun j => begins tripleHash (l.drop j))

/-- Section extraction as amended: take the least body position where
`### ` + title occurs (case-insensitively, not necessarily at the start of
a line) followed by whitespace containing a newline; return the text after
the last newline of that whitespace run, cut at the first occurrence of
the substring `###` (or the end of the body), trimmed; `""` when no such
position exists. -/
def amendedExtract (body title : String) : String :=
  let pat := ("### " ++ title).toList
  let chars := body.toList
  match (List.range chars.length).find? (headingMatchAtB pat chars) with
  | none => ""
  | some i =>
    let afterTitle := chars.drop (i + pat.length)
    let content := afterTitle.drop (((lastNlIdx (afterTitle.takeWhile isWs)).getD 0) + 1)
    String.mk (trimChars
      (content.take ((firstTripleHashIdx content).getD content.length)))

theorem lastNlIdx_isSome (l : List Char) :
    (lastNlIdx l).isSome = l.contains '\n' := by
  induction l with
  | nil => rfl
  | cons c rest ih =>
    simp only [lastNlIdx]
    cases h : lastNlIdx rest with
    | some j =>
      rw [h] at ih
      simp only [Option.isSome_some] at ih
      rw [List.contains_cons, ← ih]
      simp
    | none =>
      rw [h] at ih
      simp only [Option.isSome_none] at ih
      rw [List.contains_cons, ← ih, Bool.or_false]
      by_cases hc : c = '\n'
      · rw [if_pos hc, hc]
        simp
      · rw [if_neg hc]
        have hbeq : ('\n' == c) = false := by
          apply beq_eq_false_iff_ne.mpr
          exact fun hh => hc hh.symm
        rw [hbeq]
        rfl

theorem matchHeadingAt_isSome (pat s : List Char) :
    (matchHeadingAt pat s).isSome =
      (beginsCI pat s && ((s.drop pat.length).takeWhile isWs).contains '\n') := by
  rw [matchHeadingAt]
  by_cases h : beginsCI pat s
  · rw [if_pos h, h, Bool.true_and, afterHeadingWs, ← lastNlIdx_isSome]
    cases lastNlIdx ((s.drop pat.length).takeWhile isWs) <;> rfl
  · rw [if_neg h]
    simp only [Bool.not_eq_true] at h
    rw [h, Bool.false_and]
    rfl

theorem matchHeadingAt_eq (pat s : List Char) :
    matchHeadingAt pat s =
      if beginsCI pat s then afterHeadingWs (s.drop pat.length) else none := rfl

theorem afterHeadingWs_eq (s : List Char) :
    afterHeadingWs s =
      match lastNlIdx (s.takeWhile isWs) with
      | none => none
      | some j => some (s.drop (j + 1)) := rfl

theorem findHeadingTail_eq_find? (pat l : List Char) :
    findHeadingTail pat l =
      ((List.range l.length).find?
          (fun i => (matchHeadingAt pat (l.drop i)).isSome)).bind
        (fun i => matchHeadingAt pat (l.drop i)) := by
  induction l with
  | nil => rfl
  | cons c rest ih =>
    simp only [findHeadingTail, List.length_cons, List.range_succ_eq_map]
    cases hm : matchHeadingAt pat (c :: rest) with
    | some tail =>
      rw [List.find?_cons_of_pos]
      · simp [hm]
      · simp [hm]
    | none =>
      rw [List.find?_cons_of_neg]
      · rw [List.find?_map]
        have hcomp :
            ((fun i => (matchHeadingAt pat ((c :: rest).drop i)).isSome) ∘ Nat.succ)
              = (fun i => (matchHeadingAt pat (rest.drop i)).isSome) := by
          funext i
          rfl
        rw [hcomp, ih]
        cases hf : (List.range rest.length).find?
            (fun i => (matchHeadingAt pat (rest.drop i)).isSome) with
        | none => simp only [Option.map_none', Option.none_bind]
        | some i =>
          simp only [Option.map_some', Option.some_bind]
          rfl
      · simp [hm]

theorem takeUntilTripleHash_eq_take (l : List Char) :
    takeUntilTripleHash l = l.take ((firstTripleHashIdx l).getD l.length) := by
  induction l with
  | nil => rfl
  | cons c rest ih =>
    simp only [takeUntilTripleHash, firstTripleHashIdx, List.length_cons,
      List.range_succ_eq_map]
    by_cases h : begins tripleHash (c :: rest)
    · rw [if_pos h, List.find?_cons_of_pos]
      · rfl
      · simpa using h
    · rw [if_neg h, List.find?_cons_of_neg]
      · rw [List.find?_map]
        have : ((fun j => begins tripleHash ((c :: rest).drop j)) ∘ Nat.succ)
            = (fun j => begins tripleHash (rest.drop j)) := by
          funext j
          rfl
        rw [this]
        rw [firstTripleHashIdx] at ih
        cases hf : (List.range rest.length).find?
            (fun j => begins tripleHash (rest.drop j)) with
        | none =>
          rw [hf] at ih
          simp only [hf, Option.map_none', Option.getD_none, List.take_succ_cons]
          rw [ih]
          rfl
        | some j =>
          rw [hf] at ih
          simp only [hf, Option.map_some', Option.getD_some, List.take_succ_cons]
          rw [ih]
          rfl
      · simpa using h

/-- Claim C8: the extractor returns the text between the located heading and
the next heading of the same marker style (or the end of the document),
and `""` when no heading line names the title.  Both parts fail on the
code: on `"### A\nx\n#### B\ny"` the code stops at the deeper heading
`####` (which merely contains the substring `###`), and on `"x### A\nC"`
the code accepts a heading that does not start a line. -/
theorem getSectionContent_claim_counterexample :
    (getSectionContent "### A\nx\n#### B\ny" "A" = "x" ∧
      claimExtract "### A\nx\n#### B\ny" "A" = "x\n#### B\ny") ∧
    (getSectionContent "x### A\nC" "A" = "C" ∧
      claimExtract "x### A\nC" "A" = "") := by
  exact ⟨⟨by decide, by decide⟩, ⟨by decide, by decide⟩⟩

/-- Claim C8 (amended): section extraction locates the least body position
where `### ` followed by the section title occurs (case-insensitively,
literally after escaping, not necessarily at the start of a line) followed
by whitespace containing a newline, and returns the text from just after
the last newline of that whitespace run up to but excluding the next
occurrence of the substring `###` (which includes deeper headings such as
`####`) or the end of the document, trimmed of leading and trailing
whitespace; it returns the empty string when no such heading occurrence
exists.  On body `"### Section A\nContent\n\n### Section B\nOther"`,
extracting `"Section A"` yields `"Content"` and extracting `"Missing"`
yields `""`. -/
theorem getSectionContent_amended :
    (∀ body name : String, getSectionContent body name = amendedExtract body name) ∧
    getSectionContent "### Section A\nContent\n\n### Section B\nOther" "Section A"
      = "Content" ∧
    getSectionContent "### Section A\nContent\n\n### Section B\nOther" "Missing"
      = "" := by
  refine ⟨fun body name => ?_, by decide, by decide⟩
  rw [getSectionContent, amendedExtract, findHeadingTail_eq_find?]
  have hpred : (headingMatchAtB (("### " ++ name).toList) body.toList)
      = (fun i =>
          (matchHeadingAt (("### " ++ name).toList) (body.toList.drop i)).isSome) := by
    funext i
    rw [headingMatchAtB, matchHeadingAt_isSome, List.drop_drop]
  rw [hpred]
  cases hf : (List.range body.toList.length).find?
      (fun i =>
        (matchHeadingAt (("### " ++ name).toList) (body.toList.drop i)).isSome) with
  | none => rfl
  | some i =>
    have hsat := List.find?_some hf
    simp only [Option.some_bind]
    rw [matchHeadingAt_eq] at hsat ⊢
    by_cases hb : beginsCI (("### " ++ name).toList) (body.toList.drop i)
    · rw [if_pos hb] at hsat ⊢
      rw [afterHeadingWs_eq] at hsat ⊢
      rw [List.drop_drop] at hsat ⊢
      cases hj : lastNlIdx
          ((body.toList.drop (i + (("### " ++ name).toList).length)).takeWhile isWs) with
      | none =>
        rw [hj] at hsat
        simp at hsat
      | some j =>
        simp only [Option.getD_some, takeUntilTripleHash_eq_take]
    · rw [if_neg hb] at hsat
      simp at hsat

/-! ## Section rule evaluation (`validateSection`, `validateSectionRules`,
and the per-section step of `validatePullRequest`) -/

/-- Per-section configuration entry: `{rule, enforce_nested}`. -/
structure SectionConfig where
  rule : Option String := none
  enforce_nested : Bool := false
  deriving Repr, DecidableEq

/-- `Section "<name>" not found in PR description`. -/
def notFoundMsg (name : String) : String :=
  "Section \"" ++ name ++ "\" not found in PR description"

/-- `Section "<name>" is empty or invalid`. -/
def emptyMsg (name : String) : String :=
  "Section \"" ++ name ++ "\" is empty or invalid"

/-- `In "<name>" section, at least one option must be checked`. -/
def anyMsg (name : String) : String :=
  "In \"" ++ name ++ "\" section, at least one option must be checked"

/-- `In "<name>" section, all options must be checked`. -/
def allMsg (name : String) : String :=
  "In \"" ++ name ++ "\" section, all options must be checked"

/-- `validateSectionRules(sectionName, sectionConfig, checkboxes, checkedBoxes, errors)`. -/
def validateSectionRules (name : String) (cfg : SectionConfig)
    (boxes checkedBoxes : List Checkbox) : List String :=
  (if cfg.rule = some "any_checked" && checkedBoxes.length = 0 then [anyMsg name]
   else if cfg.rule = some "all_checked" && checkedBoxes.length < boxes.length then
     [allMsg name]
   else []) ++
  (if cfg.enforce_nested && 0 < checkedBoxes.length then
     validateNestedCheckboxes name boxes
   else [])

/-- `validateSection(sectionName, sectionConfig, sectionContent, errors)`. -/
def validateSection (name : String) (cfg : SectionConfig) (content : String) :
    List String :=
  if content = "" then [emptyMsg name]
  else
    let boxes := parseCheckboxes content
    if boxes.length = 0 then []
    else validateSectionRules name cfg boxes (boxes.filter (fun cb => cb.checked))

/-- The per-section step of `validatePullRequest`: extract the content, push
the "not found" error when it is empty, otherwise run `validateSection`. -/
def sectionCheck (name : String) (cfg : SectionConfig) (body : String) : List String :=
  let content := getSectionContent body name
  if content = "" then [notFoundMsg name]
  else validateSection name cfg content

/-- Whether the section heading occurs in the body at all (presence, as
distinct from "present but with empty content"). -/
def sectionPresentB (body name : String) : Bool :=
  (findHeadingTail (("### " ++ name).toList) body.toList).isSome

/-- The per-section errors exactly as claim C5 words them: the "not found"
error only for genuinely absent sections, an `any_checked` error whenever
zero boxes are checked, an `all_checked` error whenever some box is
unchecked. -/
def claimSectionErrors (name : String) (cfg : SectionConfig) (body : String) :
    List String :=
  if !sectionPresentB body name then [notFoundMsg name]
  else
    let boxes := parseCheckboxes (getSectionContent body name)
    if cfg.rule = some "any_checked" && (boxes.filter (fun cb => cb.checked)).length = 0 then
      [anyMsg name]
    else if cfg.rule = some "all_checked" && boxes.any (fun cb => !cb.checked) then
      [allMsg name]
    else []

theorem filter_length_eq_zero_iff_all {α : Type} (p : α → Bool) (l : List α) :
    ((l.filter p).length = 0) ↔ l.all (fun a => !p a) = true := by
  rw [List.length_eq_zero, List.filter_eq_nil_iff, List.all_eq_true]
  constructor
  · intro h a ha
    simpa using h a ha
  · intro h a ha
    simpa using h a ha

theorem filter_length_lt_iff_any {α : Type} (p : α → Bool) (l : List α) :
    ((l.filter p).length < l.length) ↔ l.any (fun a => !p a) = true := by
  rw [List.length_filter_lt_length_iff_exists, List.any_eq_true]
  constructor
  · rintro ⟨a, ha, hp⟩
    exact ⟨a, ha, by simpa using hp⟩
  · rintro ⟨a, ha, hp⟩
    exact ⟨a, ha, by simpa using hp⟩

theorem filter_length_pos_iff_any {α : Type} (p : α → Bool) (l : List α) :
    (0 < (l.filter p).length) ↔ l.any p = true := by
  rw [List.length_pos, List.any_eq_true]
  constructor
  · intro h
    obtain ⟨a, ha⟩ := List.exists_mem_of_ne_nil _ h
    exact ⟨a, (List.mem_filter.mp ha).1, (List.mem_filter.mp ha).2⟩
  · rintro ⟨a, ha, hp⟩
    intro hnil
    have : a ∈ l.filter p := List.mem_filter.mpr ⟨ha, hp⟩
    rw [hnil] at this
    cases this

/-- Body used to separate claim C5 from the code: section "Empty" is
present with blank content, section "Texty" is present with text but no
checkboxes. -/
def c5Body : String := "### Empty\n\n### Texty\nwords"

/-- Claim C5: the section evaluator emits a distinct "not found" error only
when the section is absent (never conflating absence with present-but-
empty), and an `any_checked` error whenever zero boxes are checked.  Both
parts fail: a present-but-blank section gets the "not found" error, and a
section with content but no checkboxes is skipped entirely. -/
theorem sectionCheck_claim_counterexample :
    (sectionPresentB c5Body "Empty" = true ∧
      sectionCheck "Empty" ⟨some "any_checked", false⟩ c5Body = [notFoundMsg "Empty"] ∧
      claimSectionErrors "Empty" ⟨some "any_checked", false⟩ c5Body = [anyMsg "Empty"]) ∧
    (sectionPresentB c5Body "Texty" = true ∧
      sectionCheck "Texty" ⟨some "any_checked", false⟩ c5Body = [] ∧
      claimSectionErrors "Texty" ⟨some "any_checked", false⟩ c5Body = [anyMsg "Texty"]) := by
  exact ⟨⟨by decide, by decide, by decide⟩, ⟨by decide, by decide, by decide⟩⟩

/-- Claim C5 (amended): for every configured section, the evaluator emits
the "not found" error precisely when the extracted content is empty —
section absent, or present with content that trims to nothing (absence and
emptiness are deliberately conflated); when the content is non-empty and
the section contains at least one checkbox, it emits one error when the
rule is `any_checked` and no checkbox is checked, one error when the rule
is `all_checked` and at least one checkbox is unchecked, and then the
nested-checkbox errors when `enforce_nested` is set and some checkbox is
checked; sections whose non-empty content has no checkboxes produce no
error. -/
theorem sectionCheck_amended (name : String) (cfg : SectionConfig) (body : String) :
    sectionCheck name cfg body =
      (if getSectionContent body name = "" then [notFoundMsg name] else []) ++
      (let content := getSectionContent body name
       let boxes := parseCheckboxes content
       if content ≠ "" ∧ boxes ≠ [] then
         (if cfg.rule = some "any_checked" ∧ boxes.all (fun cb => !cb.checked) then
            [anyMsg name]
          else []) ++
         (if cfg.rule = some "all_checked" ∧ boxes.any (fun cb => !cb.checked) then
            [allMsg name]
          else []) ++
         (if cfg.enforce_nested ∧ boxes.any (fun cb => cb.checked) then
            validateNestedCheckboxes name boxes
          else [])
       else []) := by
  by_cases hc : getSectionContent body name = ""
  · simp [sectionCheck, hc]
  · by_cases hb : parseCheckboxes (getSectionContent body name) = []
    · simp [sectionCheck, validateSection, hc, hb]
    · have hzero :
          (((parseCheckboxes (getSectionContent body name)).filter
            (fun cb => cb.checked)).length = 0) ↔
          (parseCheckboxes (getSectionContent body name)).all
            (fun cb => !cb.checked) = true :=
        filter_length_eq_zero_iff_all _ _
      have hlt :
          (((parseCheckboxes (getSectionContent body name)).filter
            (fun cb => cb.checked)).length <
            (parseCheckboxes (getSectionContent body name)).length) ↔
          (parseCheckboxes (getSectionContent body name)).any
            (fun cb => !cb.checked) = true :=
        filter_length_lt_iff_any _ _
      have hpos :
          (0 < ((parseCheckboxes (getSectionContent body name)).filter
            (fun cb => cb.checked)).length) ↔
          (parseCheckboxes (getSectionContent body name)).any
            (fun cb => cb.checked) = true :=
        filter_length_pos_iff_any _ _
      have hlen : ¬ ((parseCheckboxes (getSectionContent body name)).length = 0) := by
        simpa [List.length_eq_zero] using hb
      have hex : (0 < ((parseCheckboxes (getSectionContent body name)).filter
          (fun cb => cb.checked)).length) ↔
          (∃ x ∈ parseCheckboxes (getSectionContent body name), x.checked = true) := by
        rw [filter_length_pos_iff_any, List.any_eq_true]
      by_cases hany : cfg.rule = some "any_checked"
      · have hall : ¬ cfg.rule = some "all_checked" := by rw [hany]; decide
        simp [sectionCheck, validateSection, validateSectionRules, hc, hb, hlen,
          hany, hall, hzero, hex, List.any_eq_true]
      · by_cases hall : cfg.rule = some "all_checked"
        · simp [sectionCheck, validateSection, validateSectionRules, hc, hb, hlen,
            hany, hall, hlt, hzero, hex, List.any_eq_true]
        · simp [sectionCheck, validateSection, validateSectionRules, hc, hb, hlen,
            hany, hall, hex, List.any_eq_true]

/-! ## Semantic commits (`src/validators/commits.js`) -/

/-- A commit as consumed by the validator: `{sha, commit: {message}}`. -/
structure Commit where
  sha : String
  message : String
  deriving Repr, DecidableEq

/-- Error detail object `{sha, message, error}`. -/
structure CommitError where
  sha : String
  message : String
  error : String
  deriving Repr, DecidableEq

/-- `ValidationResult` from `src/types.js`. -/
structure ValidationResult where
  isValid : Bool
  error : Option CommitError := none
  deriving Repr, DecidableEq

/-- The class `[a-z]` under the `i` flag: an ASCII letter. -/
def isTypeChar (c : Char) : Bool := c.isAlpha

/-- The class `[a-z0-9-_]` under the `i` flag. -/
def isScopeChar (c : Char) : Bool := c.isAlpha || c.isDigit || c = '-' || c = '_'

/-- A character `.` can match (no `s` flag): anything but a line terminator. -/
def isSubjChar (c : Char) : Bool := !(c = '\n' || c = '\r')

/-- The `!?: (.+)$` tail of the semantic pattern, applied after the type and
optional scope: optional `!`, then `: `, then a non-empty subject of
`.`-matchable characters running to the end.  Returns whether the `!` was
present together with the subject. -/
def semFinish : List Char → Option (Bool × List Char)
  | '!' :: ':' :: ' ' :: subj =>
    if subj ≠ [] && subj.all isSubjChar then some (true, subj) else none
  | ':' :: ' ' :: subj =>
    if subj ≠ [] && subj.all isSubjChar then some (false, subj) else none
  | _ => none

/-- The anchored pattern `^([a-z]+)(?:\(([a-z0-9-_]+)\))?!?: (.+)$` with the
`i` flag: returns `(type, scope?, subject)` on a match.  The pattern is
deterministic: every repeated class is followed by a character outside the
class, so maximal munch is the regex's behaviour. -/
def semParse (msg : List Char) : Option (List Char × Option (List Char) × List Char) :=
  let ty := msg.takeWhile isTypeChar
  if ty.isEmpty then none
  else
    match msg.drop ty.length with
    | '(' :: r1 =>
      let sc := r1.takeWhile isScopeChar
      if sc.isEmpty then none
      else
        match r1.drop sc.length with
        | ')' :: r2 => (semFinish r2).map (fun p => (ty, some sc, p.2))
        | _ => none
    | rest => (semFinish rest).map (fun p => (ty, none, p.2))

/-- `validateCommitMessage(commit, allowedTypes, allowedScopes)` — note that
a JS empty array is truthy, so `allowedScopes = some []` still triggers
the scope check. -/
def validateCommitMessage (commit : Commit) (allowedTypes : List String)
    (allowedScopes : Option (List String)) : ValidationResult :=
  let sha := String.mk (commit.sha.toList.take 7)
  let message := String.mk (trimChars ((splitLines commit.message.toList).headD []))
  match semParse message.toList with
  | none =>
    ⟨false, some ⟨sha, message, "Does not follow semantic format: type(scope): subject"⟩⟩
  | some (ty, sc, _subj) =>
    if allowedTypes.length > 0 &&
        !(allowedTypes.contains (String.mk (ty.map Char.toLower))) then
      ⟨false, some ⟨sha, message,
        "Type \"" ++ String.mk ty ++ "\" is not allowed. Use one of: " ++
          String.intercalate ", " allowedTypes⟩⟩
    else
      match sc, allowedScopes with
      | some s, some scopes =>
        if !(scopes.contains (String.mk (s.map Char.toLower))) then
          ⟨false, some ⟨sha, message,
            "Scope \"" ++ String.mk s ++ "\" is not allowed. Use one of: " ++
              String.intercalate ", " scopes⟩⟩
        else ⟨true, none⟩
      | _, _ => ⟨true, none⟩

/-- The `semantic_commits` configuration object. -/
structure SemanticConfig where
  enabled : Bool := false
  types : Option (List String) := none
  allowed_scopes : Option (List String) := none
  deriving Repr, DecidableEq

/-- The commit-listing capability (`GET .../pulls/{pull_number}/commits`);
`Except.error` models a thrown transport error. -/
structure CommitsEnv where
  listCommits : Nat → Except String (List Commit)

/-- JS truthiness of an optional number field. -/
def truthyNum : Option Nat → Bool
  | none => false
  | some n => !(n = 0)

/-- The pull-request context consumed by the validators. -/
structure PullRequest where
  number : Nat := 0
  title : String := ""
  body : Option String := none
  labels : Option (List String) := none
  assignees : Option (List String) := none
  requested_reviewers : Option (List String) := none
  requested_teams : Option (List String) := none
  commits : Option Nat := none
  included_commits : Option (List Commit) := none

/-- `getCommits(github, context)`: use the payload's `included_commits` when
`commits` is truthy and `included_commits` is an array, else fetch. -/
def getCommits (env : CommitsEnv) (pr : PullRequest) : Except String (List Commit) :=
  match pr.included_commits, truthyNum pr.commits with
  | some l, true => .ok l
  | _, _ => env.listCommits pr.number

/-- `validateSemanticCommits(github, context, semanticConfig, errors)`: the
error strings it pushes. -/
def validateSemanticCommits (env : CommitsEnv) (pr : PullRequest)
    (cfg : SemanticConfig) : List String :=
  match getCommits env pr with
  | .error msg => ["Failed to validate semantic commits: " ++ msg]
  | .ok commits =>
    let invalid := commits.filterMap
      (fun c => (validateCommitMessage c (cfg.types.getD []) cfg.allowed_scopes).error)
    if invalid.length > 0 then
      "The following commits do not follow the semantic commit convention:" ::
        invalid.map (fun e => "  • " ++ e.sha ++ " - " ++ e.message ++ " - " ++ e.error)
    else []

/-! ### Declarative grammar for the semantic-commit pattern -/

/-- The optional `(scope)` segment as literal characters. -/
def scopeSegment : Option (List Char) → List Char
  | none => []
  | some s => '(' :: (s ++ [')'])

/-- The optional `!` segment as literal characters. -/
def bangSegment : Bool → List Char
  | true => ['!']
  | false => []

/-- A decomposition witnessing that `msg` matches the grammar
`type(scope)!: subject` (scope and `!` optional, type = one or more
letters, scope = letters/digits/hyphen/underscore, subject non-empty). -/
def SemDecomp (msg ty : List Char) (sc : Option (List Char)) (bang : Bool)
    (subj : List Char) : Prop :=
  msg = ty ++ scopeSegment sc ++ bangSegment bang ++ ':' :: ' ' :: subj ∧
  ty ≠ [] ∧ ty.all isTypeChar = true ∧
  (∀ s, sc = some s → s ≠ [] ∧ s.all isScopeChar = true) ∧
  subj ≠ [] ∧ subj.all isSubjChar = true

theorem takeWhile_append_all {α : Type} {p : α → Bool} {a b : List α}
    (ha : a.all p = true) (hb : ∀ c t, b = c :: t → p c = false) :
    (a ++ b).takeWhile p = a := by
  induction a with
  | nil =>
    simp only [List.nil_append]
    cases b with
    | nil => rfl
    | cons c t =>
      rw [List.takeWhile_cons_of_neg]
      simp [hb c t rfl]
  | cons x xs ih =>
    simp only [List.all_cons, Bool.and_eq_true] at ha
    rw [List.cons_append, List.takeWhile_cons_of_pos ha.1, ih ha.2]

theorem drop_length_takeWhile {α : Type} (p : α → Bool) (l : List α) :
    l.drop (l.takeWhile p).length = l.dropWhile p := by
  induction l with
  | nil => rfl
  | cons x xs ih =>
    by_cases h : p x
    · rw [List.takeWhile_cons_of_pos h, List.dropWhile_cons_of_pos h]
      simpa using ih
    · rw [List.takeWhile_cons_of_neg h, List.dropWhile_cons_of_neg h]
      rfl

theorem semFinish_eq_some {s : List Char} {bang : Bool} {subj : List Char} :
    semFinish s = some (bang, subj) ↔
      (s = bangSegment bang ++ ':' :: ' ' :: subj ∧
        subj ≠ [] ∧ subj.all isSubjChar = true) := by
  constructor
  · intro h
    unfold semFinish at h
    split at h
    · rename_i subj1
      split at h
      · rename_i hg
        injection h with h1
        injection h1 with hb hs
        subst hb
        subst hs
        simp only [Bool.and_eq_true, decide_eq_true_eq] at hg
        refine ⟨rfl, by simpa using hg.1, hg.2⟩
      · cases h
    · rename_i subj1
      split at h
      · rename_i hg
        injection h with h1
        injection h1 with hb hs
        subst hb
        subst hs
        simp only [Bool.and_eq_true, decide_eq_true_eq] at hg
        refine ⟨rfl, by simpa using hg.1, hg.2⟩
      · cases h
    · cases h
  · rintro ⟨hs, hne, hall⟩
    subst hs
    cases bang with
    | true =>
      show semFinish ('!' :: ':' :: ' ' :: subj) = some (true, subj)
      simp [semFinish, hne, hall]
    | false =>
      show semFinish (':' :: ' ' :: subj) = some (false, subj)
      simp [semFinish, hne, hall]

theorem semParse_sound {msg ty : List Char} {sc : Option (List Char)}
    {subj : List Char} (h : semParse msg = some (ty, sc, subj)) :
    ∃ bang, SemDecomp msg ty sc bang subj := by
  have hmsg : msg = msg.takeWhile isTypeChar ++ msg.dropWhile isTypeChar :=
    (List.takeWhile_append_dropWhile isTypeChar msg).symm
  simp only [semParse] at h
  by_cases hty : (msg.takeWhile isTypeChar).isEmpty
  · rw [if_pos hty] at h
    cases h
  · rw [if_neg hty] at h
    rw [drop_length_takeWhile] at h
    split at h
    · -- the `'(' :: r1` arm
      rename_i r1 hrest
      by_cases hsc : (r1.takeWhile isScopeChar).isEmpty
      · rw [if_pos hsc] at h
        cases h
      · rw [if_neg hsc] at h
        split at h
        · rename_i r2 hr2
          cases hfin : semFinish r2 with
          | none => rw [hfin] at h; cases h
          | some p =>
            rw [hfin] at h
            obtain ⟨bang, subj1⟩ := p
            simp only [Option.map_some'] at h
            injection h with h1
            injection h1 with hA hBC
            injection hBC with hB hC
            subst hA
            subst hB
            subst hC
            obtain ⟨hsfin, hsubjne, hsubjall⟩ := semFinish_eq_some.mp hfin
            refine ⟨bang, ?_, ?_, ?_, ?_, ?_, ?_⟩
            · rw [drop_length_takeWhile] at hr2
              have hr1 : r1 = r1.takeWhile isScopeChar ++ (')' :: r2) := by
                conv_lhs => rw [← List.takeWhile_append_dropWhile isScopeChar r1]
                rw [hr2]
              conv_lhs => rw [hmsg, hrest, hr1, hsfin]
              simp [scopeSegment, List.append_assoc]
            · simpa [List.isEmpty_iff] using hty
            · exact List.all_takeWhile
            · intro s hs
              injection hs with hs
              subst hs
              exact ⟨by simpa [List.isEmpty_iff] using hsc, List.all_takeWhile⟩
            · exact hsubjne
            · exact hsubjall
        · cases h
    · -- the default arm: rest does not start with '('
      rename_i hrest
      cases hfin : semFinish (msg.dropWhile isTypeChar) with
      | none => rw [hfin] at h; cases h
      | some p =>
        rw [hfin] at h
        obtain ⟨bang, subj1⟩ := p
        simp only [Option.map_some'] at h
        injection h with h1
        injection h1 with hA hBC
        injection hBC with hB hC
        subst hA
        subst hB
        subst hC
        obtain ⟨hsfin, hsubjne, hsubjall⟩ := semFinish_eq_some.mp hfin
        refine ⟨bang, ?_, ?_, ?_, ?_, ?_, ?_⟩
        · conv_lhs => rw [hmsg, hsfin]
          simp [scopeSegment]
        · simpa [List.isEmpty_iff] using hty
        · exact List.all_takeWhile
        · intro s hs
          cases hs
        · exact hsubjne
        · exact hsubjall

theorem semParse_not_paren {msg : List Char}
    (hty : ¬ (msg.takeWhile isTypeChar).isEmpty = true)
    (hhead : ∀ r1, msg.drop (msg.takeWhile isTypeChar).length ≠ '(' :: r1) :
    semParse msg =
      (semFinish (msg.drop (msg.takeWhile isTypeChar).length)).map
        (fun p => (msg.takeWhile isTypeChar, none, p.2)) := by
  simp only [semParse]
  rw [if_neg hty]

theorem semParse_paren {msg r1 : List Char}
    (hty : ¬ (msg.takeWhile isTypeChar).isEmpty = true)
    (hrest : msg.drop (msg.takeWhile isTypeChar).length = '(' :: r1) :
    semParse msg =
      (if (r1.takeWhile isScopeChar).isEmpty then none
       else
         match r1.drop (r1.takeWhile isScopeChar).length with
         | ')' :: r2 =>
           (semFinish r2).map
             (fun p => (msg.takeWhile isTypeChar, some (r1.takeWhile isScopeChar), p.2))
         | _ => none) := by
  simp only [semParse]
  rw [if_neg hty, hrest]
  rfl

theorem semParse_complete {msg ty : List Char} {sc : Option (List Char)}
    {bang : Bool} {subj : List Char} (h : SemDecomp msg ty sc bang subj) :
    semParse msg = some (ty, sc, subj) := by
  obtain ⟨hmsg, htyne, htyall, hscope, hsubjne, hsubjall⟩ := h
  have hheadNotType : ∀ c t,
      scopeSegment sc ++ (bangSegment bang ++ ':' :: ' ' :: subj) = c :: t →
      isTypeChar c = false := by
    intro c t hct
    cases sc with
    | some s =>
      simp only [scopeSegment, List.cons_append] at hct
      injection hct with h1 _
      subst h1
      rfl
    | none =>
      cases bang with
      | true =>
        simp only [scopeSegment, bangSegment, List.nil_append,
          List.cons_append, List.singleton_append] at hct
        injection hct with h1 _
        subst h1
        rfl
      | false =>
        simp only [scopeSegment, bangSegment, List.nil_append] at hct
        injection hct with h1 _
        subst h1
        rfl
  have hmsg' : msg = ty ++ (scopeSegment sc ++ (bangSegment bang ++ ':' :: ' ' :: subj)) := by
    rw [hmsg]
    simp [List.append_assoc]
  have htw : msg.takeWhile isTypeChar = ty := by
    rw [hmsg']
    exact takeWhile_append_all htyall hheadNotType
  have htyne' : ¬ (msg.takeWhile isTypeChar).isEmpty = true := by
    rw [htw]
    simpa [List.isEmpty_iff] using htyne
  have hdrop : msg.drop (msg.takeWhile isTypeChar).length =
      scopeSegment sc ++ (bangSegment bang ++ ':' :: ' ' :: subj) := by
    rw [htw, hmsg']
    exact List.drop_left ty _
  have hfin : semFinish (bangSegment bang ++ ':' :: ' ' :: subj) = some (bang, subj) :=
    semFinish_eq_some.mpr ⟨rfl, hsubjne, hsubjall⟩
  cases sc with
  | none =>
    have hhead : ∀ r1, msg.drop (msg.takeWhile isTypeChar).length ≠ '(' :: r1 := by
      intro r1 hct
      rw [hdrop] at hct
      simp only [scopeSegment, List.nil_append] at hct
      cases bang with
      | true =>
        simp only [bangSegment, List.cons_append, List.singleton_append] at hct
        injection hct with h1 _
        cases h1
      | false =>
        simp only [bangSegment, List.nil_append] at hct
        injection hct with h1 _
        cases h1
    rw [semParse_not_paren htyne' hhead, hdrop]
    simp only [scopeSegment, List.nil_append]
    rw [hfin]
    simp only [Option.map_some', htw]
  | some s =>
    have hrest : msg.drop (msg.takeWhile isTypeChar).length =
        '(' :: (s ++ ')' :: (bangSegment bang ++ ':' :: ' ' :: subj)) := by
      rw [hdrop]
      simp [scopeSegment, List.append_assoc]
    obtain ⟨hsne, hsall⟩ := hscope s rfl
    have hsw : (s ++ ')' :: (bangSegment bang ++ ':' :: ' ' :: subj)).takeWhile
        isScopeChar = s := by
      apply takeWhile_append_all hsall
      intro c t hct
      injection hct with h1 _
      rw [← h1]
      decide
    rw [semParse_paren htyne' hrest, hsw]
    rw [if_neg (by simpa [List.isEmpty_iff] using hsne)]
    have hdrop2 : (s ++ ')' :: (bangSegment bang ++ ':' :: ' ' :: subj)).drop
        s.length = ')' :: (bangSegment bang ++ ':' :: ' ' :: subj) :=
      List.drop_left s _
    rw [hdrop2]
    simp only [hfin, Option.map_some', htw]

theorem toList_mk (l : List Char) : (String.mk l).toList = l := rfl

/-- The trimmed first message line the validator actually examines. -/
def firstLine (commit : Commit) : List Char :=
  trimChars ((splitLines commit.message.toList).headD [])

/-- The rejection condition exactly as claim C6 words it: grammar failure,
or type outside a NON-EMPTY configured type list, or scope given and
outside a NON-EMPTY configured scope list. -/
def claimRejectsB (commit : Commit) (types : List String)
    (scopes : Option (List String)) : Bool :=
  match semParse (firstLine commit) with
  | none => true
  | some (ty, sc, _) =>
    (types.length > 0 && !(types.contains (String.mk (ty.map Char.toLower)))) ||
    (match sc, scopes with
     | some s, some l => l.length > 0 && !(l.contains (String.mk (s.map Char.toLower)))
     | _, _ => false)

/-- Concrete commit separating claim C6 from the code. -/
def c6Commit : Commit := ⟨"abcdef1234", "feat(ui): add button"⟩

/-- Claim C6: a commit is rejected iff it fails the grammar, or its type is
outside a non-empty type list, or its scope is outside a configured
NON-EMPTY scope list.  False on the code: a configured EMPTY scope list
(truthy in JS) rejects every scoped commit, so `feat(ui): add button`
under `types = []`, `allowed_scopes = []` is rejected by the code while
the claim says it is accepted. -/
theorem validateCommitMessage_claim_counterexample :
    (validateCommitMessage c6Commit [] (some [])).isValid = false ∧
    claimRejectsB c6Commit [] (some []) = false := by
  exact ⟨by decide, by decide⟩

/-- Claim C6 (amended): a commit's first message line is rejected if and
only if it fails the grammar `type(scope)!: subject` (scope and `!`
optional, type one-or-more letters, scope letters/digits/hyphen/
underscore, non-empty subject), or its lowercased type is outside a
non-empty configured type list (an empty type list allows any type), or a
scope was given, a scope list was configured (even an empty one), and the
lowercased scope is not in it. -/
theorem validateCommitMessage_amended (commit : Commit) (types : List String)
    (scopes : Option (List String)) :
    (validateCommitMessage commit types scopes).isValid = false ↔
      (¬ ∃ ty sc bang subj, SemDecomp (firstLine commit) ty sc bang subj) ∨
      (∃ ty sc bang subj, SemDecomp (firstLine commit) ty sc bang subj ∧
        ((types ≠ [] ∧ ¬ (String.mk (ty.map Char.toLower)) ∈ types) ∨
         (∃ s l, sc = some s ∧ scopes = some l ∧
            ¬ (String.mk (s.map Char.toLower)) ∈ l))) := by
  cases hp : semParse (firstLine commit) with
  | none =>
    have hnod : ¬ ∃ ty sc bang subj, SemDecomp (firstLine commit) ty sc bang subj := by
      rintro ⟨ty, sc, bang, subj, hd⟩
      rw [semParse_complete hd] at hp
      cases hp
    constructor
    · intro _
      exact Or.inl hnod
    · intro _
      simp only [validateCommitMessage, toList_mk]
      rw [show trimChars ((splitLines commit.message.toList).headD []) =
        firstLine commit from rfl, hp]
  | some triple =>
    obtain ⟨ty, sc, subj⟩ := triple
    obtain ⟨bang, hd⟩ := semParse_sound hp
    have huniq : ∀ ty' sc' bang' subj', SemDecomp (firstLine commit) ty' sc' bang' subj' →
        ty' = ty ∧ sc' = sc ∧ subj' = subj := by
      intro ty' sc' bang' subj' hd'
      have hthis := semParse_complete hd'
      rw [hp] at hthis
      injection hthis with h1
      injection h1 with hA hBC
      injection hBC with hB hC
      exact ⟨hA.symm, hB.symm, hC.symm⟩
    have htypos : ∀ h : (types.length > 0 &&
        !(types.contains (String.mk (ty.map Char.toLower)))) = true,
        types ≠ [] ∧ ¬ (String.mk (ty.map Char.toLower)) ∈ types := by
      intro h
      simp only [Bool.and_eq_true, Bool.not_eq_true', decide_eq_true_eq] at h
      constructor
      · intro hnil
        rw [hnil] at h
        simp at h
      · simpa using h.2
    have htyneg : ∀ h : ¬ ((types.length > 0 &&
        !(types.contains (String.mk (ty.map Char.toLower)))) = true),
        ¬ (types ≠ [] ∧ ¬ (String.mk (ty.map Char.toLower)) ∈ types) := by
      intro h
      intro ⟨hne, hnin⟩
      apply h
      simp only [Bool.and_eq_true, Bool.not_eq_true', decide_eq_true_eq]
      exact ⟨by simpa [List.length_pos] using hne, by simpa using hnin⟩
    cases sc with
    | none =>
      simp only [validateCommitMessage, toList_mk]
      rw [show trimChars ((splitLines commit.message.toList).headD []) =
        firstLine commit from rfl]
      simp only [hp]
      by_cases htyc : (types.length > 0 &&
          !(types.contains (String.mk (ty.map Char.toLower)))) = true
      · rw [if_pos htyc]
        exact iff_of_true rfl
          (Or.inr ⟨ty, none, bang, subj, hd, Or.inl (htypos htyc)⟩)
      · rw [if_neg htyc]
        apply iff_of_false
        · simp
        · rintro (hno | ⟨ty', sc', bang', subj', hd', hcl⟩)
          · exact hno ⟨ty, none, bang, subj, hd⟩
          · obtain ⟨hA, hB, hC⟩ := huniq ty' sc' bang' subj' hd'
            subst hA
            subst hB
            rcases hcl with hticl | ⟨s, l, hs, hl, hnin⟩
            · exact htyneg htyc hticl
            · cases hs
    | some s =>
      cases hscopes : scopes with
      | none =>
        simp only [validateCommitMessage, toList_mk]
        rw [show trimChars ((splitLines commit.message.toList).headD []) =
          firstLine commit from rfl]
        simp only [hp]
        by_cases htyc : (types.length > 0 &&
            !(types.contains (String.mk (ty.map Char.toLower)))) = true
        · rw [if_pos htyc]
          exact iff_of_true rfl
            (Or.inr ⟨ty, some s, bang, subj, hd, Or.inl (htypos htyc)⟩)
        · rw [if_neg htyc]
          apply iff_of_false
          · simp
          · rintro (hno | ⟨ty', sc', bang', subj', hd', hcl⟩)
            · exact hno ⟨ty, some s, bang, subj, hd⟩
            · obtain ⟨hA, hB, hC⟩ := huniq ty' sc' bang' subj' hd'
              subst hA
              subst hB
              rcases hcl with hticl | ⟨s', l, hs, hl, hnin⟩
              · exact htyneg htyc hticl
              · cases hl
      | some l =>
        simp only [validateCommitMessage, toList_mk]
        rw [show trimChars ((splitLines commit.message.toList).headD []) =
          firstLine commit from rfl]
        simp only [hp]
        by_cases htyc : (types.length > 0 &&
            !(types.contains (String.mk (ty.map Char.toLower)))) = true
        · rw [if_pos htyc]
          exact iff_of_true rfl
            (Or.inr ⟨ty, some s, bang, subj, hd, Or.inl (htypos htyc)⟩)
        · rw [if_neg htyc]
          by_cases hcont : l.contains (String.mk (s.map Char.toLower)) = true
          · rw [if_neg (by simpa using hcont)]
            apply iff_of_false
            · simp
            · rintro (hno | ⟨ty', sc', bang', subj', hd', hcl⟩)
              · exact hno ⟨ty, some s, bang, subj, hd⟩
              · obtain ⟨hA, hB, hC⟩ := huniq ty' sc' bang' subj' hd'
                subst hA
                subst hB
                rcases hcl with hticl | ⟨s', l', hs, hl, hnin⟩
                · exact htyneg htyc hticl
                · injection hs with hs
                  subst hs
                  injection hl with hl
                  subst hl
                  exact hnin (by simpa using hcont)
          · rw [if_pos (by simpa using hcont)]
            exact iff_of_true rfl
              (Or.inr ⟨ty, some s, bang, subj, hd,
                Or.inr ⟨s, l, rfl, rfl, by simpa using hcont⟩⟩)

/-! ### Commit retrieval (claim C4) -/

/-- The claim's condition for preferring the embedded commit list: its
length matches the PR's reported commit count. -/
def claimUsesEmbeddedB (pr : PullRequest) : Bool :=
  match pr.included_commits, pr.commits with
  | some l, some n => l.length = n
  | _, _ => false

/-- A commit for the concrete C4 scenarios. -/
def c4Commit : Commit := ⟨"a1b2c3d4", "feat: x"⟩

/-- PR whose embedded list (empty) disagrees with its reported commit
count (3). -/
def c4Pr : PullRequest := { number := 5, commits := some 3, included_commits := some [] }

/-- Commit-listing capability returning three commits. -/
def c4Env : CommitsEnv := ⟨fun _ => .ok [c4Commit, c4Commit, c4Commit]⟩

/-- Claim C4: the embedded commit list is used iff its length matches the
PR's reported commit count.  False on the code: `getCommits` only checks
that the count field is truthy and that `included_commits` is an array —
it never compares lengths.  Here the embedded list is empty, the count is
3, and the code still returns the embedded empty list instead of fetching
the three commits the capability would return. -/
theorem getCommits_claim_counterexample :
    claimUsesEmbeddedB c4Pr = false ∧
    getCommits c4Env c4Pr = .ok [] ∧
    c4Env.listCommits c4Pr.number = .ok [c4Commit, c4Commit, c4Commit] ∧
    getCommits c4Env c4Pr ≠ c4Env.listCommits c4Pr.number := by
  refine ⟨rfl, rfl, rfl, ?_⟩
  intro h
  injection h with h
  exact List.noConfusion h

/-- Claim C4 (amended): the semantic-commits check uses the commit list
embedded on the PR context if and only if the PR's reported commit count
field is present and non-zero and the embedded list is present (an
array), regardless of whether the lengths match; otherwise it fetches the
full list via the commit-listing capability keyed by the PR number; and
if that fetch fails, exactly one error reading "Failed to validate
semantic commits" (with the failure message) is added. -/
theorem getCommits_amended (env : CommitsEnv) (pr : PullRequest) (cfg : SemanticConfig) :
    (∀ l, pr.included_commits = some l → truthyNum pr.commits = true →
      getCommits env pr = .ok l) ∧
    ((truthyNum pr.commits && pr.included_commits.isSome) = false →
      getCommits env pr = env.listCommits pr.number) ∧
    (∀ msg, getCommits env pr = .error msg →
      validateSemanticCommits env pr cfg =
        ["Failed to validate semantic commits: " ++ msg]) := by
  refine ⟨?_, ?_, ?_⟩
  · intro l hl ht
    rw [getCommits, hl, ht]
  · intro h
    rw [getCommits]
    cases hl : pr.included_commits with
    | none => rfl
    | some l =>
      rw [hl] at h
      simp only [Option.isSome_some, Bool.and_true] at h
      rw [h]
  · intro msg h
    rw [validateSemanticCommits, h]

/-- Witness data for the amended C4 theorem. -/
def c4PrEmbed : PullRequest :=
  { number := 9, commits := some 1, included_commits := some [c4Commit] }

/-- Witness data: a PR without an embedded list. -/
def c4PrNoEmbed : PullRequest := { number := 9, commits := some 1 }

/-- Witness data: a failing commit-listing capability. -/
def c4EnvErr : CommitsEnv := ⟨fun _ => .error "boom"⟩

theorem getCommits_amended_witness :
    getCommits c4Env c4PrEmbed = .ok [c4Commit] ∧
    getCommits c4Env c4PrNoEmbed = c4Env.listCommits c4PrNoEmbed.number ∧
    validateSemanticCommits c4EnvErr c4PrNoEmbed {} =
      ["Failed to validate semantic commits: boom"] :=
  ⟨(getCommits_amended c4Env c4PrEmbed {}).1 [c4Commit] rfl rfl,
   (getCommits_amended c4Env c4PrNoEmbed {}).2.1 rfl,
   (getCommits_amended c4EnvErr c4PrNoEmbed {}).2.2 "boom" rfl⟩

/-! ## Issue reference (`validateIssueReference`, `src/check-pr-template.js`)

The regex is
`(?:close|closes|closed|fix|fixes|fixed|resolve|resolves|resolved)`
`(?:\s*:\s*|\s+)((?:[a-zA-Z0-9_.-]+\/[a-zA-Z0-9_.-]+)?#\d+)` with the `i`
flag, searched anywhere in the body.  Group 1 always contains at least
`#<digit>` when the regex matches, so the error fires exactly when there
is no match. -/

/-- The GitHub issue-linking keywords. -/
def issueKeywords : List (List Char) :=
  [['c','l','o','s','e'], ['c','l','o','s','e','s'], ['c','l','o','s','e','d'],
   ['f','i','x'], ['f','i','x','e','s'], ['f','i','x','e','d'],
   ['r','e','s','o','l','v','e'], ['r','e','s','o','l','v','e','s'],
   ['r','e','s','o','l','v','e','d']]

/-- The class `[a-zA-Z0-9_.-]` (owner/repo segment characters). -/
def isRepoChar (c : Char) : Bool :=
  c.isAlpha || c.isDigit || c = '_' || c = '.' || c = '-'

/-- The group `((?:[a-zA-Z0-9_.-]+\/[a-zA-Z0-9_.-]+)?#\d+)` tested at the
head of `s` (trailing characters are unconstrained). -/
def refMatch (s : List Char) : Bool :=
  (match s with
   | '#' :: rest => !(rest.takeWhile Char.isDigit).isEmpty
   | _ => false) ||
  (let seg1 := s.takeWhile isRepoChar
   if seg1.isEmpty then false
   else
     match s.drop seg1.length with
     | '/' :: r2 =>
       let seg2 := r2.takeWhile isRepoChar
       if seg2.isEmpty then false
       else
         match r2.drop seg2.length with
         | '#' :: r3 => !(r3.takeWhile Char.isDigit).isEmpty
         | _ => false
     | _ => false)

/-- The separator-then-reference part `(?:\s*:\s*|\s+)` followed by the
reference group, tested at the head of `s`. -/
def sepRefMatch (s : List Char) : Bool :=
  (match s.drop (s.takeWhile isWs).length with
   | ':' :: r2 => refMatch (r2.drop (r2.takeWhile isWs).length)
   | _ => false) ||
  (!(s.takeWhile isWs).isEmpty && refMatch (s.drop (s.takeWhile isWs).length))

/-- Whether the full pattern matches at the head of `s`. -/
def kwRefAt (s : List Char) : Bool :=
  issueKeywords.any (fun kw => beginsCI kw s && sepRefMatch (s.drop kw.length))

/-- Whether the pattern matches anywhere in the body (the unanchored regex
search). -/
def issueRefMatch : List Char → Bool
  | [] => false
  | c :: rest => kwRefAt (c :: rest) || issueRefMatch rest

/-- The error text pushed when no issue reference is found. -/
def issueRefErrMsg : String :=
  "Required issue reference is missing. Use a format like 'Fixes: #123' or 'Closes owner/repo#456' in your PR description."

/-- `validateIssueReference(prBody, errors)`: the errors it pushes. -/
def validateIssueReference (prBody : String) : List String :=
  if issueRefMatch prBody.toList then [] else [issueRefErrMsg]

/-! ### Declarative reading of the issue-reference pattern -/

/-- The separator `(?:\s*:\s*|\s+)` as a decomposition: whitespace around a
colon, or non-empty whitespace. -/
def SepForm (sep : List Char) : Prop :=
  (∃ w1 w2, sep = w1 ++ ':' :: w2 ∧ w1.all isWs = true ∧ w2.all isWs = true) ∨
  (sep ≠ [] ∧ sep.all isWs = true)

/-- The reference `(?:[a-zA-Z0-9_.-]+\/[a-zA-Z0-9_.-]+)?#\d+` as a
decomposition: `#<digits>` or `<owner>/<repo>#<digits>`. -/
def RefForm (ref : List Char) : Prop :=
  (∃ ds, ref = '#' :: ds ∧ ds ≠ [] ∧ ds.all Char.isDigit = true) ∨
  (∃ o r ds, ref = o ++ '/' :: (r ++ '#' :: ds) ∧
    o ≠ [] ∧ o.all isRepoChar = true ∧ r ≠ [] ∧ r.all isRepoChar = true ∧
    ds ≠ [] ∧ ds.all Char.isDigit = true)

/-- The body contains (anywhere) a case-insensitive linking keyword,
followed by a separator, followed by an issue reference. -/
def IssueRefSpec (body : List Char) : Prop :=
  ∃ pre kwtext sep ref suf kw,
    body = pre ++ kwtext ++ sep ++ ref ++ suf ∧
    kw ∈ issueKeywords ∧ kwtext.map Char.toLower = kw.map Char.toLower ∧
    SepForm sep ∧ RefForm ref

theorem beginsCI_iff {p t : List Char} :
    beginsCI p t = true ↔
      ∃ t1 t2, t = t1 ++ t2 ∧ t1.map Char.toLower = p.map Char.toLower := by
  induction p generalizing t with
  | nil =>
    constructor
    · intro _
      exact ⟨[], t, rfl, rfl⟩
    · intro _
      rfl
  | cons c cs ih =>
    cases t with
    | nil =>
      constructor
      · intro h
        cases h
      · rintro ⟨t1, t2, heq, hmap⟩
        cases t1 with
        | nil => cases hmap
        | cons x xs => cases heq
    | cons d ds =>
      simp only [beginsCI, Bool.and_eq_true, ih, charCI, decide_eq_true_eq]
      constructor
      · rintro ⟨hc, t1, t2, heq, hmap⟩
        refine ⟨d :: t1, t2, by rw [heq]; rfl, ?_⟩
        simp only [List.map_cons, hmap, List.cons.injEq]
        exact ⟨hc.symm, trivial⟩
      · rintro ⟨t1, t2, heq, hmap⟩
        cases t1 with
        | nil => cases hmap
        | cons x xs =>
          injection heq with h1 h2
          subst h1
          injection hmap with hm1 hm2
          exact ⟨hm1.symm, xs, t2, h2, hm2⟩

theorem not_ws_of_repoChar {c : Char} (h : isRepoChar c = true) : isWs c = false := by
  by_contra hws
  simp only [Bool.not_eq_false, isWs, Bool.or_eq_true, decide_eq_true_eq] at hws
  have hc : c = ' ' ∨ c = '\t' ∨ c = '\n' ∨ c = '\x0d' ∨ c = '\x0b' ∨ c = '\x0c' := by
    tauto
  rcases hc with h1 | h1 | h1 | h1 | h1 | h1 <;> (subst h1; revert h; decide)

theorem refForm_head_not_ws {ref : List Char} (h : RefForm ref) (suf : List Char) :
    ∀ c t, ref ++ suf = c :: t → isWs c = false := by
  intro c t hct
  rcases h with ⟨ds, href, _, _⟩ | ⟨o, r, ds, href, hone, hoall, _, _, _, _⟩
  · rw [href] at hct
    injection hct with h1 _
    subst h1
    decide
  · rw [href] at hct
    cases o with
    | nil => exact absurd rfl hone
    | cons oc ot =>
      injection hct with h1 _
      subst h1
      exact not_ws_of_repoChar (by
        have := hoall
        simp only [List.all_cons, Bool.and_eq_true] at this
        exact this.1)

theorem refForm_head_not_colon {ref : List Char} (h : RefForm ref) (suf : List Char) :
    ∀ t, ref ++ suf ≠ ':' :: t := by
  intro t hct
  rcases h with ⟨ds, href, _, _⟩ | ⟨o, r, ds, href, hone, hoall, _, _, _, _⟩
  · rw [href] at hct
    injection hct with h1 _
    cases h1
  · rw [href] at hct
    cases o with
    | nil => exact absurd rfl hone
    | cons oc ot =>
      injection hct with h1 _
      subst h1
      simp only [List.all_cons, Bool.and_eq_true] at hoall
      exact absurd hoall.1 (by decide)

theorem refMatch_iff {s : List Char} :
    refMatch s = true ↔ ∃ ref suf, s = ref ++ suf ∧ RefForm ref := by
  constructor
  · intro h
    simp only [refMatch, Bool.or_eq_true] at h
    rcases h with h | h
    · split at h
      · rename_i rest
        simp only [Bool.not_eq_true', List.isEmpty_eq_false] at h
        refine ⟨'#' :: rest.takeWhile Char.isDigit, rest.dropWhile Char.isDigit, ?_, ?_⟩
        · rw [List.cons_append, List.takeWhile_append_dropWhile]
        · exact Or.inl ⟨rest.takeWhile Char.isDigit, rfl, h, List.all_takeWhile⟩
      · cases h
    · by_cases hseg1 : (s.takeWhile isRepoChar).isEmpty
      · rw [if_pos hseg1] at h
        cases h
      · rw [if_neg hseg1] at h
        rw [drop_length_takeWhile] at h
        split at h
        · rename_i r2 hr2
          by_cases hseg2 : (r2.takeWhile isRepoChar).isEmpty
          · rw [if_pos hseg2] at h
            cases h
          · rw [if_neg hseg2] at h
            rw [drop_length_takeWhile] at h
            split at h
            · rename_i r3 hr3
              simp only [Bool.not_eq_true', List.isEmpty_eq_false] at h
              refine ⟨s.takeWhile isRepoChar ++ '/' ::
                  (r2.takeWhile isRepoChar ++ '#' :: r3.takeWhile Char.isDigit),
                r3.dropWhile Char.isDigit, ?_, ?_⟩
              · conv_lhs => rw [← List.takeWhile_append_dropWhile isRepoChar s, hr2]
                conv_lhs => rw [← List.takeWhile_append_dropWhile isRepoChar r2, hr3]
                conv_lhs => rw [← List.takeWhile_append_dropWhile Char.isDigit r3]
                simp [List.append_assoc]
              · exact Or.inr ⟨s.takeWhile isRepoChar, r2.takeWhile isRepoChar,
                  r3.takeWhile Char.isDigit, rfl,
                  by simpa [List.isEmpty_iff] using hseg1, List.all_takeWhile,
                  by simpa [List.isEmpty_iff] using hseg2, List.all_takeWhile,
                  h, List.all_takeWhile⟩
            · cases h
        · cases h
  · rintro ⟨ref, suf, hs, href⟩
    subst hs
    simp only [refMatch, Bool.or_eq_true]
    rcases href with ⟨ds, href, hdsne, hdsall⟩ |
      ⟨o, r, ds, href, hone, hoall, hrne, hrall, hdsne, hdsall⟩
    · left
      rw [href]
      cases ds with
      | nil => exact absurd rfl hdsne
      | cons d dt =>
        simp only [List.all_cons, Bool.and_eq_true] at hdsall
        simp only [List.cons_append]
        rw [List.takeWhile_cons_of_pos hdsall.1]
        simp
    · right
      rw [href]
      obtain ⟨d, dt, hds⟩ : ∃ d dt, ds = d :: dt := by
        cases ds with
        | nil => exact absurd rfl hdsne
        | cons d dt => exact ⟨d, dt, rfl⟩
      subst hds
      simp only [List.all_cons, Bool.and_eq_true] at hdsall
      have hseg1 : ((o ++ '/' :: (r ++ '#' :: (d :: dt))) ++ suf).takeWhile isRepoChar = o := by
        rw [List.append_assoc]
        apply takeWhile_append_all hoall
        intro c t hct
        simp only [List.cons_append] at hct
        injection hct with h1 _
        rw [← h1]
        decide
      have hdrop1 : ((o ++ '/' :: (r ++ '#' :: (d :: dt))) ++ suf).drop o.length =
          '/' :: ((r ++ '#' :: (d :: dt)) ++ suf) := by
        rw [List.append_assoc, List.drop_left]
        simp
      have hseg2 : ((r ++ '#' :: (d :: dt)) ++ suf).takeWhile isRepoChar = r := by
        rw [List.append_assoc]
        apply takeWhile_append_all hrall
        intro c t hct
        simp only [List.cons_append] at hct
        injection hct with h1 _
        rw [← h1]
        decide
      have hdrop2 : ((r ++ '#' :: (d :: dt)) ++ suf).drop r.length =
          '#' :: ((d :: dt) ++ suf) := by
        rw [List.append_assoc, List.drop_left]
        simp
      have htw : ((d :: dt) ++ suf).takeWhile Char.isDigit ≠ [] := by
        simp only [List.cons_append]
        rw [List.takeWhile_cons_of_pos hdsall.1]
        simp
      rw [hseg1, if_neg (by simpa [List.isEmpty_iff] using hone), hdrop1]
      simp only [hseg2]
      rw [if_neg (by simpa [List.isEmpty_iff] using hrne)]
      simp only [hdrop2]
      simpa [List.isEmpty_eq_false] using htw

theorem sepRefMatch_iff {s : List Char} :
    sepRefMatch s = true ↔
      ∃ sep ref suf, s = sep ++ (ref ++ suf) ∧ SepForm sep ∧ RefForm ref := by
  constructor
  · intro h
    simp only [sepRefMatch, Bool.or_eq_true] at h
    rcases h with h | h
    · rw [drop_length_takeWhile] at h
      split at h
      · rename_i r2 hr2
        rw [drop_length_takeWhile] at h
        obtain ⟨ref, suf, hr3, href⟩ := refMatch_iff.mp h
        refine ⟨s.takeWhile isWs ++ ':' :: r2.takeWhile isWs, ref, suf, ?_,
          Or.inl ⟨_, _, rfl, List.all_takeWhile, List.all_takeWhile⟩, href⟩
        conv_lhs => rw [← List.takeWhile_append_dropWhile isWs s, hr2]
        conv_lhs => rw [← List.takeWhile_append_dropWhile isWs r2, hr3]
        simp [List.append_assoc]
      · cases h
    · simp only [Bool.and_eq_true, Bool.not_eq_true', List.isEmpty_eq_false] at h
      obtain ⟨hne, h⟩ := h
      rw [drop_length_takeWhile] at h
      obtain ⟨ref, suf, hr3, href⟩ := refMatch_iff.mp h
      refine ⟨s.takeWhile isWs, ref, suf, ?_,
        Or.inr ⟨hne, List.all_takeWhile⟩, href⟩
      conv_lhs => rw [← List.takeWhile_append_dropWhile isWs s, hr3]
  · rintro ⟨sep, ref, suf, hs, hsep, href⟩
    subst hs
    simp only [sepRefMatch, Bool.or_eq_true]
    rcases hsep with ⟨w1, w2, hsepeq, hw1, hw2⟩ | ⟨hne, hall⟩
    · left
      subst hsepeq
      have hnorm : (w1 ++ ':' :: w2) ++ (ref ++ suf) =
          w1 ++ ':' :: (w2 ++ (ref ++ suf)) := by
        simp [List.append_assoc]
      rw [hnorm]
      have ht1 : (w1 ++ ':' :: (w2 ++ (ref ++ suf))).takeWhile isWs = w1 := by
        apply takeWhile_append_all hw1
        intro c t hct
        injection hct with h1 _
        rw [← h1]
        decide
      rw [ht1, List.drop_left]
      have ht2 : (w2 ++ (ref ++ suf)).takeWhile isWs = w2 :=
        takeWhile_append_all hw2 (refForm_head_not_ws href suf)
      simp only [ht2, List.drop_left]
      exact refMatch_iff.mpr ⟨ref, suf, rfl, href⟩
    · right
      have ht1 : (sep ++ (ref ++ suf)).takeWhile isWs = sep :=
        takeWhile_append_all hall (refForm_head_not_ws href suf)
      simp only [ht1, List.drop_left, Bool.and_eq_true, Bool.not_eq_true',
        List.isEmpty_eq_false]
      exact ⟨hne, refMatch_iff.mpr ⟨ref, suf, rfl, href⟩⟩

theorem kwRefAt_iff {s : List Char} :
    kwRefAt s = true ↔
      ∃ kwtext sep ref suf kw, s = kwtext ++ (sep ++ (ref ++ suf)) ∧
        kw ∈ issueKeywords ∧ kwtext.map Char.toLower = kw.map Char.toLower ∧
        SepForm sep ∧ RefForm ref := by
  constructor
  · intro h
    simp only [kwRefAt, List.any_eq_true, Bool.and_eq_true] at h
    obtain ⟨kw, hkw, hb, hsr⟩ := h
    obtain ⟨t1, t2, hs, hmap⟩ := beginsCI_iff.mp hb
    have hlen : t1.length = kw.length := by
      have hml := congrArg List.length hmap
      simpa using hml
    have hdrop : s.drop kw.length = t2 := by
      rw [hs, ← hlen, List.drop_left]
    rw [hdrop] at hsr
    obtain ⟨sep, ref, suf, ht2, hsep, href⟩ := sepRefMatch_iff.mp hsr
    exact ⟨t1, sep, ref, suf, kw, by rw [hs, ht2], hkw, hmap, hsep, href⟩
  · rintro ⟨kwtext, sep, ref, suf, kw, hs, hkw, hmap, hsep, href⟩
    subst hs
    simp only [kwRefAt, List.any_eq_true, Bool.and_eq_true]
    have hlen : kwtext.length = kw.length := by
      have hml := congrArg List.length hmap
      simpa using hml
    refine ⟨kw, hkw, beginsCI_iff.mpr ⟨kwtext, sep ++ (ref ++ suf), rfl, hmap⟩, ?_⟩
    rw [← hlen, List.drop_left]
    exact sepRefMatch_iff.mpr ⟨sep, ref, suf, rfl, hsep, href⟩

theorem issueRefMatch_append {s : List Char} (h : kwRefAt s = true) :
    ∀ pre, issueRefMatch (pre ++ s) = true := by
  intro pre
  induction pre with
  | nil =>
    cases s with
    | nil =>
      rw [show kwRefAt [] = false from by decide] at h
      cases h
    | cons c rest =>
      simp [issueRefMatch, h]
  | cons p ps ih =>
    simp [issueRefMatch, ih]

theorem issueRefMatch_iff {body : List Char} :
    issueRefMatch body = true ↔ IssueRefSpec body := by
  constructor
  · intro h
    induction body with
    | nil => cases h
    | cons c rest ih =>
      simp only [issueRefMatch, Bool.or_eq_true] at h
      rcases h with h | h
      · obtain ⟨kwtext, sep, ref, suf, kw, hs, hkw, hmap, hsep, href⟩ := kwRefAt_iff.mp h
        exact ⟨[], kwtext, sep, ref, suf, kw, by simpa [List.append_assoc] using hs,
          hkw, hmap, hsep, href⟩
      · obtain ⟨pre, kwtext, sep, ref, suf, kw, hs, hkw, hmap, hsep, href⟩ := ih h
        exact ⟨c :: pre, kwtext, sep, ref, suf, kw, by rw [hs]; simp [List.append_assoc],
          hkw, hmap, hsep, href⟩
  · rintro ⟨pre, kwtext, sep, ref, suf, kw, hs, hkw, hmap, hsep, href⟩
    have hk : kwRefAt (kwtext ++ (sep ++ (ref ++ suf))) = true :=
      kwRefAt_iff.mpr ⟨kwtext, sep, ref, suf, kw, rfl, hkw, hmap, hsep, href⟩
    have hb : body = pre ++ (kwtext ++ (sep ++ (ref ++ suf))) := by
      rw [hs]
      simp [List.append_assoc]
    rw [hb]
    exact issueRefMatch_append hk pre

/-- Claim C7: when the issue-reference check is enabled, the PR body passes
if and only if it contains a case-insensitive keyword from {close, closes,
closed, fix, fixes, fixed, resolve, resolves, resolved} followed by a
separator (optional-whitespace colon optional-whitespace, or whitespace)
and then `#<digits>` or `<owner>/<repo>#<digits>`; otherwise exactly one
error describing the required format is emitted.  In particular
"Fixes: #123" and "closes owner/repo#45" pass while "Issue #123" and
"No issue reference here" each yield one error. -/
theorem validateIssueReference_spec :
    (∀ body : String, validateIssueReference body = [] ↔ IssueRefSpec body.toList) ∧
    (∀ body : String, validateIssueReference body = [] ∨
      validateIssueReference body = [issueRefErrMsg]) ∧
    validateIssueReference "No issue reference here" = [issueRefErrMsg] ∧
    validateIssueReference "Fixes: #123" = [] ∧
    validateIssueReference "closes owner/repo#45" = [] ∧
    validateIssueReference "Issue #123" = [issueRefErrMsg] := by
  refine ⟨?_, ?_, by decide, by decide, by decide, by decide⟩
  · intro body
    rw [validateIssueReference]
    by_cases h : issueRefMatch body.toList
    · rw [if_pos h]
      exact iff_of_true rfl (issueRefMatch_iff.mp h)
    · rw [if_neg h]
      apply iff_of_false
      · simp
      · intro hspec
        exact h (issueRefMatch_iff.mpr hspec)
  · intro body
    rw [validateIssueReference]
    by_cases h : issueRefMatch body.toList <;> simp [h]

/-! ## Configuration resolution (`src/config.js`)

External collaborators are oracle fields: Node `path.extname`, the GitHub
contents API (`fetchFileFromGitHub`, which catches every error and returns
null), `fs.readFileSync` (`none` models a throw, caught by the loaders),
`findLocalFileIgnoreCase` (fs-backed), and the YAML parser.
`parseMarkdownDoc` abstracts `extractFrontMatter` +
`parseValidationConfig(content, true)` (front-matter block, `validation`
key); `parseYamlDoc` abstracts `YAML.parse` of a whole document. -/

/-- The effective validation configuration object, with `none`/`[]` for
absent fields (JS `undefined`). -/
structure RuleConfig where
  require_labels : Option Bool := none
  require_assignees : Option Nat := none
  require_reviewers : Option Nat := none
  issue_number : Option String := none
  semantic_commits : Option SemanticConfig := none
  sections : List (String × SectionConfig) := []
  deriving Repr, DecidableEq

/-- The environment `loadValidationConfig` runs in. -/
structure ConfigEnv where
  configFileInput : String := ""
  configBranch : Option String := none
  hasGithubContext : Bool := false
  extname : String → String := fun _ => ""
  remoteFetch : String → String → Option String := fun _ _ => none
  localRead : String → Option String := fun _ => none
  localFindIgnoreCase : String → Option String := fun _ => none
  parseMarkdownDoc : String → Option RuleConfig := fun _ => none
  parseYamlDoc : String → Option RuleConfig := fun _ => none

/-- `getConfigLoaderForFile`: `some true` = the markdown loader,
`some false` = the YAML loader, `none` = unsupported extension. -/
def getConfigLoaderKind (env : ConfigEnv) (filePath : String) : Option Bool :=
  let ext := String.mk ((env.extname filePath).toList.map Char.toLower)
  if ext = ".md" || ext = ".markdown" then some true
  else if ext = ".yml" || ext = ".yaml" then some false
  else none

/-- JS falsiness of a fetched string (`undefined` or `""`). -/
def truthyStr : Option String → Option String
  | some c => if c = "" then none else some c
  | none => none

/-- The parsing stage shared by the two loaders: markdown requires a front
matter block with a `validation` key; YAML rejects an all-whitespace
document before parsing it whole. -/
def parseDoc (env : ConfigEnv) (kind : Bool) (c : String) : Option RuleConfig :=
  if kind then env.parseMarkdownDoc c
  else if trimChars c.toList = [] then none else env.parseYamlDoc c

/-- `loadConfigFromMarkdown` / `loadConfigFromYaml` (selected by `kind`):
when a config branch is set and a GitHub client was passed, try the remote
fetch, falling back to the local file when the fetch yields nothing;
otherwise read the local file; then parse. -/
def loadConfigViaLoader (env : ConfigEnv) (kind : Bool) (path : String)
    (withGithub : Bool) : Option RuleConfig :=
  let remote :=
    match env.configBranch, withGithub && env.hasGithubContext with
    | some br, true => truthyStr (env.remoteFetch path br)
    | _, _ => none
  let contents :=
    match remote with
    | some c => some c
    | none => env.localRead path
  match contents with
  | none => none
  | some c => parseDoc env kind c

/-- `getTemplatePaths()`. -/
def getTemplatePaths : List String :=
  ["./pull_request_template.md",
   "./.github/pull_request_template.md",
   "./docs/pull_request_template.md",
   "./.github/PULL_REQUEST_TEMPLATE/pull_request_template.md",
   "./docs/PULL_REQUEST_TEMPLATE/pull_request_template.md"]

/-- First non-`none` element (the early `return config` of the loops). -/
def firstSome {α : Type} : List (Option α) → Option α
  | [] => none
  | none :: rest => firstSome rest
  | some a :: _ => some a

/-- `loadConfigFromPrBody(prBody)`: front-matter pipeline on the body. -/
def loadConfigFromPrBody (env : ConfigEnv) (prBody : String) : Option RuleConfig :=
  env.parseMarkdownDoc prBody

/-- A template-path attempt on the configured branch (step 2 loop body). -/
def templateBranchAttempt (env : ConfigEnv) (p : String) : Option RuleConfig :=
  match getConfigLoaderKind env p with
  | some kind => loadConfigViaLoader env kind p true
  | none => none

/-- A template-path attempt against the working tree (step 3 loop body). -/
def templateLocalAttempt (env : ConfigEnv) (p : String) : Option RuleConfig :=
  match env.localFindIgnoreCase p with
  | some lp =>
    match getConfigLoaderKind env lp with
    | some kind => loadConfigViaLoader env kind lp false
    | none => none
  | none => none

/-- The step-1 attempt of the explicit config file on the configured
branch (loader called with the GitHub client, so it may fall back to the
local file internally). -/
def explicitBranchAttempt (env : ConfigEnv) : Option RuleConfig :=
  if env.configFileInput ≠ "" then
    if env.configBranch.isSome ∧ env.hasGithubContext then
      match getConfigLoaderKind env env.configFileInput with
      | some kind => loadConfigViaLoader env kind env.configFileInput true
      | none => none
    else none
  else none

/-- The step-1 attempt of the explicit config file in the working tree
(case-insensitive path match, loader without the GitHub client). -/
def explicitLocalAttempt (env : ConfigEnv) : Option RuleConfig :=
  if env.configFileInput ≠ "" then
    match env.localFindIgnoreCase env.configFileInput with
    | some lp =>
      match getConfigLoaderKind env lp with
      | some kind => loadConfigViaLoader env kind lp false
      | none => none
    | none => none
  else none

/-- `loadValidationConfig(prBody, github, context)`. -/
def loadValidationConfig (env : ConfigEnv) (prBody : String) : RuleConfig :=
  match explicitBranchAttempt env with
  | some c => c
  | none =>
    match explicitLocalAttempt env with
    | some c => c
    | none =>
      match (if env.configBranch.isSome ∧ env.hasGithubContext then
          firstSome (getTemplatePaths.map (templateBranchAttempt env))
        else none) with
      | some c => c
      | none =>
        match firstSome (getTemplatePaths.map (templateLocalAttempt env)) with
        | some c => c
        | none =>
          match loadConfigFromPrBody env prBody with
          | some c => c
          | none => {}

/-! ### Spec-side reading of the resolution order (claim C2) -/

/-- The claim's candidate "explicit path on the named branch": remote fetch
and parse only, with no fallback to the working tree. -/
def claimExplicitBranch (env : ConfigEnv) : Option RuleConfig :=
  if env.configFileInput ≠ "" then
    match env.configBranch, env.hasGithubContext with
    | some br, true =>
      match getConfigLoaderKind env env.configFileInput with
      | some kind =>
        match truthyStr (env.remoteFetch env.configFileInput br) with
        | some c => parseDoc env kind c
        | none => none
      | none => none
    | _, _ => none
  else none

/-- The claim's candidate "template path on the named branch": remote fetch
and parse only, with no fallback to the working tree. -/
def claimTemplateBranch (env : ConfigEnv) (p : String) : Option RuleConfig :=
  match env.configBranch, env.hasGithubContext with
  | some br, true =>
    match getConfigLoaderKind env p with
    | some kind =>
      match truthyStr (env.remoteFetch p br) with
      | some c => parseDoc env kind c
      | none => none
    | none => none
  | _, _ => none

/-- Resolution exactly as claim C2 words it: the five candidate groups in
strict priority order, first success wins, empty object otherwise. -/
def claimResolve (env : ConfigEnv) (prBody : String) : RuleConfig :=
  (firstSome
    ([claimExplicitBranch env, explicitLocalAttempt env] ++
     getTemplatePaths.map (claimTemplateBranch env) ++
     getTemplatePaths.map (templateLocalAttempt env) ++
     [loadConfigFromPrBody env prBody])).getD {}

/-- Branch-sourced configuration used by the C2 scenario. -/
def cfgRemote : RuleConfig := { require_labels := some true }

/-- Working-tree configuration used by the C2 scenario. -/
def cfgLocal : RuleConfig := { require_labels := some false }

/-- Environment separating claim C2 from the code: no explicit config
file; a config branch is set; the second conventional template path
exists on the branch, while the first exists only in the working tree. -/
def c2Env : ConfigEnv :=
  { configBranch := some "cfg"
    hasGithubContext := true
    extname := fun _ => ".md"
    remoteFetch := fun p _ =>
      if p = "./.github/pull_request_template.md" then some "remote" else none
    localRead := fun p =>
      if p = "./pull_request_template.md" then some "local" else none
    localFindIgnoreCase := fun p =>
      if p = "./pull_request_template.md" then some p else none
    parseMarkdownDoc := fun c =>
      if c = "remote" then some cfgRemote
      else if c = "local" then some cfgLocal
      else none }

/-- Claim C2: candidates are tried in strict priority order — every
template path on the named branch before any local template path.  False
on the code: each branch attempt silently falls back to the same local
path when the remote fetch yields nothing, so a local first template wins
over a remote second template. -/
theorem loadValidationConfig_claim_counterexample :
    loadValidationConfig c2Env "" = cfgLocal ∧
    claimResolve c2Env "" = cfgRemote ∧
    cfgLocal ≠ cfgRemote := by
  refine ⟨by decide, by decide, by decide⟩

theorem firstSome_append {α : Type} (l1 l2 : List (Option α)) :
    firstSome (l1 ++ l2) =
      match firstSome l1 with
      | some a => some a
      | none => firstSome l2 := by
  induction l1 with
  | nil => rfl
  | cons o rest ih =>
    cases o with
    | none => simpa [firstSome] using ih
    | some a => rfl

/-- The code's actual candidate list: like the claim's, but the explicit
and template branch attempts carry the internal fallback to the same
local path. -/
def resolveCandidates (env : ConfigEnv) (prBody : String) : List (Option RuleConfig) :=
  explicitBranchAttempt env ::
    explicitLocalAttempt env ::
    ((if env.configBranch.isSome ∧ env.hasGithubContext then
        getTemplatePaths.map (templateBranchAttempt env)
      else []) ++
     (getTemplatePaths.map (templateLocalAttempt env) ++
      [loadConfigFromPrBody env prBody]))

/-- Claim C2 (amended): resolution walks the candidate list — explicit
path on the named branch (with silent fallback to the same exact local
path when the remote fetch yields nothing), explicit path locally
(case-insensitive), each conventional template path on the named branch
(each with the same silent local fallback), each template path locally,
then PR-body front matter — and returns the first candidate that yields a
parsed configuration object, or the empty object, never throwing; and
when the remote fetch of a branch-specific explicit file itself succeeds
and parses, its content is returned regardless of any local file. -/
theorem loadValidationConfig_amended (env : ConfigEnv) (prBody : String) :
    (loadValidationConfig env prBody =
      (firstSome (resolveCandidates env prBody)).getD {}) ∧
    (∀ br kind content c1, env.configFileInput ≠ "" → env.configBranch = some br →
      env.hasGithubContext = true →
      getConfigLoaderKind env env.configFileInput = some kind →
      env.remoteFetch env.configFileInput br = some content → content ≠ "" →
      parseDoc env kind content = some c1 →
      loadValidationConfig env prBody = c1) ∧
    (firstSome (resolveCandidates env prBody) = none →
      loadValidationConfig env prBody = {}) := by
  have hmain : loadValidationConfig env prBody =
      (firstSome (resolveCandidates env prBody)).getD {} := by
    rw [loadValidationConfig, resolveCandidates]
    cases explicitBranchAttempt env with
    | some c => rfl
    | none =>
      simp only [firstSome]
      cases explicitLocalAttempt env with
      | some c => rfl
      | none =>
        simp only [firstSome]
        rw [firstSome_append]
        by_cases hg : env.configBranch.isSome ∧ env.hasGithubContext
        · rw [if_pos hg, if_pos hg]
          cases firstSome (getTemplatePaths.map (templateBranchAttempt env)) with
          | some c => rfl
          | none =>
            rw [firstSome_append]
            cases firstSome (getTemplatePaths.map (templateLocalAttempt env)) with
            | some c => rfl
            | none =>
              cases loadConfigFromPrBody env prBody with
              | some c => rfl
              | none => rfl
        · rw [if_neg hg, if_neg hg]
          simp only [firstSome_append, firstSome]
          cases firstSome (getTemplatePaths.map (templateLocalAttempt env)) with
          | some c => rfl
          | none =>
            cases loadConfigFromPrBody env prBody with
            | some c => rfl
            | none => rfl
  refine ⟨hmain, ?_, ?_⟩
  · intro br kind content c1 hin hbr hgh hkind hfetch hcne hparse
    rw [loadValidationConfig]
    have hb : explicitBranchAttempt env = some c1 := by
      rw [explicitBranchAttempt, if_pos hin,
        if_pos ⟨by rw [hbr]; rfl, hgh⟩, hkind]
      simp only [loadConfigViaLoader, hbr, hgh, Bool.and_true, Bool.true_and]
      rw [hfetch]
      simp only [truthyStr]
      rw [if_neg hcne]
      exact hparse
    rw [hb]
  · intro hnone
    rw [hmain, hnone]
    rfl

/-- Environment whose branch-specific explicit file fetches and parses. -/
def c2WitnessEnv : ConfigEnv :=
  { configFileInput := "cfg.md"
    configBranch := some "b"
    hasGithubContext := true
    extname := fun _ => ".md"
    remoteFetch := fun _ _ => some "remote"
    parseMarkdownDoc := fun c => if c = "remote" then some cfgRemote else none }

theorem loadValidationConfig_amended_witness :
    loadValidationConfig c2WitnessEnv "" = cfgRemote ∧
    loadValidationConfig {} "" = {} :=
  ⟨(loadValidationConfig_amended c2WitnessEnv "").2.1 "b" true "remote" cfgRemote
      (by decide) rfl rfl (by decide) rfl (by decide) (by decide),
   (loadValidationConfig_amended {} "").2.2 (by decide)⟩


/-! ## Orchestration (`validatePullRequest`, `src/check-pr-template.js`) -/

/-- A step-summary row `{name, status}`. -/
structure Step where
  name : String
  status : String
  deriving Repr, DecidableEq

/-- `errors.length === errorCount ? "✅ Passed" : "❌ Failed"`. -/
def stepStatus (failed : Bool) : String :=
  if failed then "❌ Failed" else "✅ Passed"

/-- `validateLabels(pullRequest, errors)`. -/
def validateLabels (pr : PullRequest) : List String :=
  if (pr.labels.getD []).isEmpty then
    ["At least one label must be applied to this pull request"]
  else []

/-- `validateAssignees(pullRequest, minAssignees, errors)`. -/
def validateAssignees (pr : PullRequest) (minAssignees : Nat) : List String :=
  let assignees := pr.assignees.getD []
  if assignees.length < minAssignees then
    if assignees.length = 0 then
      ["This pull request requires at least " ++ toString minAssignees ++
        " assignee(s). Currently no one is assigned."]
    else
      ["This pull request requires at least " ++ toString minAssignees ++
        " assignee(s). Currently assigned: " ++ String.intercalate ", " assignees]
  else []

/-- `validateReviewers(pullRequest, minReviewers, errors)`; requested teams
render as `<name> (team)`. -/
def validateReviewers (pr : PullRequest) (minReviewers : Nat) : List String :=
  let requested := pr.requested_reviewers.getD [] ++
    (pr.requested_teams.getD []).map (fun n => n ++ " (team)")
  if requested.length < minReviewers then
    if requested.length = 0 then
      ["This pull request requires at least " ++ toString minReviewers ++
        " reviewer(s). Currently no reviews are requested."]
    else
      ["This pull request requires at least " ++ toString minReviewers ++
        " reviewer(s). Currently requested: " ++ String.intercalate ", " requested]
  else []

/-- `validationConfig.require_labels === true`. -/
def labelsEnabled (cfg : RuleConfig) : Bool := cfg.require_labels = some true

/-- `validationConfig.require_assignees && validationConfig.require_assignees > 0`. -/
def assigneesEnabled (cfg : RuleConfig) : Bool :=
  match cfg.require_assignees with
  | some n => 0 < n
  | none => false

/-- `validationConfig.require_reviewers && validationConfig.require_reviewers > 0`. -/
def reviewersEnabled (cfg : RuleConfig) : Bool :=
  match cfg.require_reviewers with
  | some n => 0 < n
  | none => false

/-- `validationConfig.issue_number === "required"`. -/
def issueEnabled (cfg : RuleConfig) : Bool := cfg.issue_number = some "required"

/-- `validationConfig.semantic_commits?.enabled === true`. -/
def semanticEnabled (cfg : RuleConfig) : Bool :=
  match cfg.semantic_commits with
  | some sc => sc.enabled
  | none => false

/-- `validationConfig.sections && Object.keys(validationConfig.sections).length > 0`. -/
def sectionsEnabled (cfg : RuleConfig) : Bool := !cfg.sections.isEmpty

/-- One guarded check: when enabled, record a step named `name` whose
status reflects whether the check pushed errors, and push those errors. -/
def checkBlock (name : String) (enabled : Bool) (errs : List String) :
    List Step × List String :=
  if enabled then ([⟨name, stepStatus (!errs.isEmpty)⟩], errs) else ([], [])

/-- The per-section loop body: "not found" error and step for empty
extracted content, otherwise `validateSection` and a pass/fail step. -/
def sectionBlock (body : String) (p : String × SectionConfig) :
    List Step × List String :=
  let content := getSectionContent body p.1
  if content = "" then
    ([⟨"Section: " ++ p.1, "❌ Failed (Section not found)"⟩], [notFoundMsg p.1])
  else
    let errs := validateSection p.1 p.2 content
    ([⟨"Section: " ++ p.1, stepStatus (!errs.isEmpty)⟩], errs)

/-- The sequential check-running part of `validatePullRequest` (lines
223-350): steps and errors accumulate in the fixed declared order. -/
def runChecks (env : CommitsEnv) (cfg : RuleConfig) (pr : PullRequest)
    (prBody : String) : List Step × List String :=
  let b1 := checkBlock "Labels" (labelsEnabled cfg) (validateLabels pr)
  let b2 := checkBlock "Assignees" (assigneesEnabled cfg)
    (validateAssignees pr (cfg.require_assignees.getD 0))
  let b3 := checkBlock "Reviewers" (reviewersEnabled cfg)
    (validateReviewers pr (cfg.require_reviewers.getD 0))
  let b4 := checkBlock "Issue Reference" (issueEnabled cfg)
    (validateIssueReference prBody)
  let b5 := checkBlock "Semantic Commits" (semanticEnabled cfg)
    (validateSemanticCommits env pr (cfg.semantic_commits.getD {}))
  let bs := if sectionsEnabled cfg then cfg.sections.map (sectionBlock prBody) else []
  (b1.1 ++ b2.1 ++ b3.1 ++ b4.1 ++ b5.1 ++ (bs.map Prod.fst).flatten,
   b1.2 ++ b2.2 ++ b3.2 ++ b4.2 ++ b5.2 ++ (bs.map Prod.snd).flatten)

/-- The full environment of the action. -/
structure ActionEnv where
  config : ConfigEnv
  commits : CommitsEnv

/-- The triggering event payload. -/
structure Payload where
  pull_request : Option PullRequest := none

/-- The observable outcome of a run: fatal abort (no pull-request context)
or completion with a verdict, errors and steps. -/
inductive RunOutcome where
  | aborted
  | completed (passed : Bool) (errors : List String) (steps : List Step)
  deriving Repr, DecidableEq

/-- `validatePullRequest({github, context})`. -/
def validatePullRequest (env : ActionEnv) (payload : Payload) : RunOutcome :=
  match payload.pull_request with
  | none => .aborted
  | some pr =>
    let prBody := pr.body.getD ""
    let cfg := loadValidationConfig env.config prBody
    let r := runChecks env.commits cfg pr prBody
    .completed r.2.isEmpty r.2 r.1

theorem checkBlock_snd (name : String) (e : Bool) (errs : List String) :
    (checkBlock name e errs).2 = if e then errs else [] := by
  cases e <;> simp [checkBlock]

theorem checkBlock_fst (name : String) (e : Bool) (errs : List String) :
    (checkBlock name e errs).1 =
      if e then [⟨name, stepStatus (!errs.isEmpty)⟩] else [] := by
  cases e <;> simp [checkBlock]

theorem sectionBlock_snd (body : String) (p : String × SectionConfig) :
    (sectionBlock body p).2 = sectionCheck p.1 p.2 body := by
  rw [sectionBlock, sectionCheck]
  by_cases h : getSectionContent body p.1 = "" <;> simp [h]

theorem sectionBlock_fst_name (body : String) (p : String × SectionConfig) :
    (sectionBlock body p).1.map Step.name = ["Section: " ++ p.1] := by
  rw [sectionBlock]
  by_cases h : getSectionContent body p.1 = "" <;> simp [h]

/-! ### Claim-side reading of the orchestrator -/

/-- The claim's error list: the enabled checks' errors concatenated in the
fixed declared order, then each configured section's errors in order. -/
def claimErrors (env : CommitsEnv) (cfg : RuleConfig) (pr : PullRequest)
    (prBody : String) : List String :=
  (if labelsEnabled cfg then validateLabels pr else []) ++
  (if assigneesEnabled cfg then validateAssignees pr (cfg.require_assignees.getD 0) else []) ++
  (if reviewersEnabled cfg then validateReviewers pr (cfg.require_reviewers.getD 0) else []) ++
  (if issueEnabled cfg then validateIssueReference prBody else []) ++
  (if semanticEnabled cfg then validateSemanticCommits env pr (cfg.semantic_commits.getD {}) else []) ++
  (cfg.sections.map (fun p => sectionCheck p.1 p.2 prBody)).flatten

/-- The claim's step names: the enabled checks in the fixed declared order,
then one step per configured section in configuration order. -/
def claimStepNames (cfg : RuleConfig) : List String :=
  (if labelsEnabled cfg then ["Labels"] else []) ++
  (if assigneesEnabled cfg then ["Assignees"] else []) ++
  (if reviewersEnabled cfg then ["Reviewers"] else []) ++
  (if issueEnabled cfg then ["Issue Reference"] else []) ++
  (if semanticEnabled cfg then ["Semantic Commits"] else []) ++
  cfg.sections.map (fun p => "Section: " ++ p.1)

theorem checkBlock_fst_names (name : String) (e : Bool) (errs : List String) :
    (checkBlock name e errs).1.map Step.name = if e then [name] else [] := by
  cases e <;> simp [checkBlock]

theorem sections_empty_of_not_enabled (cfg : RuleConfig)
    (hs : sectionsEnabled cfg = false) : cfg.sections = [] := by
  simpa [sectionsEnabled, List.isEmpty_iff] using hs

theorem flatten_map_errs (prBody : String) (l : List (String × SectionConfig)) :
    ((l.map (sectionBlock prBody)).map Prod.snd).flatten =
      (l.map (fun p => sectionCheck p.1 p.2 prBody)).flatten := by
  induction l with
  | nil => rfl
  | cons p t ih =>
    simp only [List.map_cons, List.flatten_cons, sectionBlock_snd, ih]

theorem flatten_map_names (prBody : String) (l : List (String × SectionConfig)) :
    (((l.map (sectionBlock prBody)).map Prod.fst).flatten).map Step.name =
      l.map (fun p => "Section: " ++ p.1) := by
  induction l with
  | nil => rfl
  | cons p t ih =>
    simp only [List.map_cons, List.flatten_cons, List.map_append,
      sectionBlock_fst_name, ih, List.singleton_append]

theorem runChecks_snd (env : CommitsEnv) (cfg : RuleConfig) (pr : PullRequest)
    (prBody : String) :
    (runChecks env cfg pr prBody).2 = claimErrors env cfg pr prBody := by
  simp only [runChecks, claimErrors, checkBlock_snd]
  congr 1
  cases hs : sectionsEnabled cfg
  · rw [sections_empty_of_not_enabled cfg hs]
    simp
  · rw [if_pos rfl]
    exact flatten_map_errs prBody cfg.sections

theorem runChecks_fst_names (env : CommitsEnv) (cfg : RuleConfig)
    (pr : PullRequest) (prBody : String) :
    (runChecks env cfg pr prBody).1.map Step.name = claimStepNames cfg := by
  simp only [runChecks, claimStepNames, List.map_append, checkBlock_fst_names]
  congr 1
  cases hs : sectionsEnabled cfg
  · rw [sections_empty_of_not_enabled cfg hs]
    simp
  · rw [if_pos rfl]
    exact flatten_map_names prBody cfg.sections

/-- C3: on a pull-request event the run completes with an error list equal
to the ordered concatenation of the enabled checks' errors (Labels,
Assignees, Reviewers, Issue Reference, Semantic Commits, then each
configured section in configuration order, none short-circuiting), step
names in that same fixed order, and a verdict that is passed exactly when
the accumulated error list is empty. -/
theorem validatePullRequest_spec (env : ActionEnv) (payload : Payload)
    (pr : PullRequest) (h : payload.pull_request = some pr) :
    ∃ passed errors steps,
      validatePullRequest env payload = RunOutcome.completed passed errors steps ∧
      errors = claimErrors env.commits
        (loadValidationConfig env.config (pr.body.getD "")) pr (pr.body.getD "") ∧
      steps.map Step.name =
        claimStepNames (loadValidationConfig env.config (pr.body.getD "")) ∧
      (passed = true ↔ errors = []) := by
  simp only [validatePullRequest, h]
  exact ⟨_, _, _, rfl, runChecks_snd _ _ _ _, runChecks_fst_names _ _ _ _,
    List.isEmpty_iff⟩

def w3Pr : PullRequest :=
  { number := 7, title := "t", body := some "Fixes #12", labels := some ["bug"] }

def w3Env : ActionEnv := ⟨{}, ⟨fun _ => Except.ok []⟩⟩

/-- A concrete instantiation of the C3 theorem. -/
theorem validatePullRequest_spec_witness :
    ∃ passed errors steps,
      validatePullRequest w3Env ⟨some w3Pr⟩ = RunOutcome.completed passed errors steps ∧
      errors = claimErrors w3Env.commits
        (loadValidationConfig w3Env.config (w3Pr.body.getD "")) w3Pr (w3Pr.body.getD "") ∧
      steps.map Step.name =
        claimStepNames (loadValidationConfig w3Env.config (w3Pr.body.getD "")) ∧
      (passed = true ↔ errors = []) :=
  validatePullRequest_spec w3Env ⟨some w3Pr⟩ w3Pr rfl

/-- C9: an all-absent configuration disables every check, so the run
produces no steps and no errors, and any pull-request event whose resolved
configuration is the empty object completes passed with zero errors. -/
theorem emptyConfig_passes :
    (∀ (env : CommitsEnv) (pr : PullRequest) (prBody : String),
      runChecks env {} pr prBody = ([], [])) ∧
    (∀ (env : ActionEnv) (payload : Payload) (pr : PullRequest),
      payload.pull_request = some pr →
      loadValidationConfig env.config (pr.body.getD "") = {} →
      validatePullRequest env payload = RunOutcome.completed true [] []) := by
  have hrc : ∀ (env : CommitsEnv) (pr : PullRequest) (prBody : String),
      runChecks env {} pr prBody = ([], []) := fun _ _ _ => rfl
  refine ⟨hrc, ?_⟩
  intro env payload pr h hcfg
  simp only [validatePullRequest, h]
  rw [hcfg, hrc]
  rfl

def w9Pr : PullRequest := { number := 3, title := "fix" }

def w9Env : ActionEnv := ⟨{}, ⟨fun _ => Except.error "offline"⟩⟩

/-- A concrete instantiation of the C9 theorem: the default environment
resolves no configuration, so validation passes with no errors. -/
theorem emptyConfig_passes_witness :
    validatePullRequest w9Env ⟨some w9Pr⟩ = RunOutcome.completed true [] [] :=
  emptyConfig_passes.2 w9Env ⟨some w9Pr⟩ w9Pr rfl rfl

/-- C10: the run aborts exactly when the payload has no pull_request; a
null/missing body is treated as the empty string (the outcome equals the
outcome on the same PR with body ""), and when the issue-reference check
is enabled under the resolved configuration the completed run's error list
contains that check's ordinary violation message rather than a fatal
failure. -/
theorem nullBody_defaults_empty (env : ActionEnv) (payload : Payload) :
    (validatePullRequest env payload = RunOutcome.aborted ↔
      payload.pull_request = none) ∧
    (∀ pr, payload.pull_request = some pr → pr.body = none →
      validatePullRequest env payload =
        validatePullRequest env ⟨some { pr with body := some "" }⟩) ∧
    (∀ pr passed errors steps, payload.pull_request = some pr →
      pr.body = none →
      issueEnabled (loadValidationConfig env.config "") = true →
      validatePullRequest env payload = RunOutcome.completed passed errors steps →
      issueRefErrMsg ∈ errors) := by
  refine ⟨?_, ?_, ?_⟩
  · cases hp : payload.pull_request <;> simp [validatePullRequest, hp]
  · intro pr h hb
    simp only [validatePullRequest, h]
    rw [hb]
    rfl
  · intro pr passed errors steps h hb hiss heq
    simp only [validatePullRequest, h, hb, Option.getD_none] at heq
    injection heq with h1 h2 h3
    subst h2
    have h4 : issueRefErrMsg ∈
        (if issueEnabled (loadValidationConfig env.config "") then
          validateIssueReference "" else []) := by
      simp only [hiss, if_true]
      exact List.mem_singleton_self issueRefErrMsg
    simp only [runChecks, checkBlock_snd, List.mem_append]
    exact Or.inl (Or.inl (Or.inr h4))

def w10Pr : PullRequest := { number := 9, title := "n", labels := some ["x"] }

def w10Env : ActionEnv :=
  ⟨{ parseMarkdownDoc := fun _ => some { issue_number := some "required" } },
    ⟨fun _ => Except.ok []⟩⟩

/-- A concrete instantiation of the C10 theorem: a PR with a null body and
an issue-reference requirement runs to completion, behaves as on the empty
body, and reports the ordinary missing-reference violation. -/
theorem nullBody_defaults_empty_witness :
    validatePullRequest w10Env ⟨some w10Pr⟩ =
      validatePullRequest w10Env ⟨some { w10Pr with body := some "" }⟩ ∧
    issueRefErrMsg ∈ [issueRefErrMsg] :=
  ⟨(nullBody_defaults_empty w10Env ⟨some w10Pr⟩).2.1 w10Pr rfl rfl,
   (nullBody_defaults_empty w10Env ⟨some w10Pr⟩).2.2 w10Pr false [issueRefErrMsg]
     [⟨"Issue Reference", "❌ Failed"⟩] rfl rfl rfl rfl⟩

end PRCheck
